import Mathlib

/-!
# Verification of the TOC-driven chunk builder and hybrid search ranker

This development gives a shallow embedding, in Lean 4, of the core algorithmic
content of the backend under `src/backend/app`:

* the text normalizer `normalize_text` (`app/text_utils.py`),
* the paragraph splitter `_split_by_paragraphs` (`app/routers/documents.py`),
* the TOC range resolver and chunk builder `chunk_by_toc` (`app/routers/documents.py`),
* the diversity/pagination ranking of `semantic_search` (`app/routers/search.py`),
* the embedding upsert helpers (`app/routers/documents.py`, `app/routers/chunks.py`).

Python strings are modelled as `List Char`; Python `int` as `Int`; SQL floats
appearing only through orderings and arithmetic (distances, scores) as `Rat`.
Recursions that Python performs with slicing steps are written with an explicit
fuel argument equal to the input length so that every definition is structural
and evaluates by `decide`/`rfl`.
-/

namespace App

/-! ## Python whitespace and basic string primitives

`wsB c` is Python's `str.isspace` restricted to the ASCII range (the characters
removed by `str.strip()` / `str.rstrip()` on ASCII text): space, `\t`, `\n`,
`\r`, `\x0b`, `\x0c` and the separator controls `\x1c`–`\x1f`.  All theorems
that quantify over strings either stay inside the ASCII range or evaluate on
concrete inputs, where this model agrees with Python. -/
def wsB (c : Char) : Bool :=
  c = ' ' || c = '\t' || c = '\n' || c = '\r' || c = '\x0b' || c = '\x0c' ||
  c = '\x1c' || c = '\x1d' || c = '\x1e' || c = '\x1f'

/-- Python `str.lstrip()`. -/
def lstripCh (l : List Char) : List Char := l.dropWhile wsB

/-- Python `str.rstrip()`. -/
def rstripCh (l : List Char) : List Char := (l.reverse.dropWhile wsB).reverse

/-- Python `str.strip()`. -/
def stripCh (l : List Char) : List Char := rstripCh (lstripCh l)

/-- Python `text.split("\n\n")`: split on non-overlapping double newlines,
scanning left to right. -/
def splitOn2 : List Char → List (List Char)
  | [] => [[]]
  | '\n' :: '\n' :: rest => [] :: splitOn2 rest
  | c :: rest =>
    match splitOn2 rest with
    | [] => [[c]]
    | h :: t => (c :: h) :: t

/-- Python `s.split("\n")`. -/
def splitOnNl : List Char → List (List Char)
  | [] => [[]]
  | c :: rest =>
    if c = '\n' then [] :: splitOnNl rest
    else
      match splitOnNl rest with
      | [] => [[c]]
      | h :: t => (c :: h) :: t

/-- Python `"\n".join(lines)`. -/
def joinNl : List (List Char) → List Char
  | [] => []
  | [l] => l
  | l :: ls => l ++ '\n' :: joinNl ls

/-- Python `sep.join(ls)` for an arbitrary separator. -/
def joinSep (sep : List Char) : List (List Char) → List Char
  | [] => []
  | [l] => l
  | l :: ls => l ++ sep ++ joinSep sep ls

/-! ## The paragraph splitter (`_split_by_paragraphs`, documents.py lines 46–71) -/

/-- The fixed-size hard split `for i in range(0, len(p), max_chars): p[i:i+max_chars]`.
The fuel argument is the input length; the definition is faithful for
`1 ≤ m` (Python raises on step 0, which the caller never passes). -/
def sliceFixedAux (m : Nat) : Nat → List Char → List (List Char)
  | _, [] => []
  | 0, _ => []
  | fuel + 1, c :: rest =>
    (c :: rest.take (m - 1)) :: sliceFixedAux m fuel (rest.drop (m - 1))

def sliceFixed (m : Nat) (p : List Char) : List (List Char) :=
  sliceFixedAux m p.length p

/-- One iteration of the paragraph loop of `_split_by_paragraphs`;
the state is the pair `(chunks, buf)`. -/
def splitStep (maxChars : Nat) (st : List (List Char) × List Char) (p : List Char) :
    List (List Char) × List Char :=
  if maxChars < p.length then
    ((if st.2 = [] then st.1 else st.1 ++ [stripCh st.2]) ++
       (sliceFixed maxChars p).map stripCh, [])
  else if st.2.length + (if st.2 = [] then 0 else 2) + p.length ≤ maxChars then
    (st.1, if st.2 = [] then p else st.2 ++ '\n' :: '\n' :: p)
  else
    (st.1 ++ [stripCh st.2], p)

/-- `_split_by_paragraphs(text, max_chars)` from documents.py. -/
def _split_by_paragraphs (text : List Char) (maxChars : Nat) : List (List Char) :=
  if text.length ≤ maxChars then (if text = [] then [] else [text])
  else
    let paras := ((splitOn2 text).map stripCh).filter (fun p => !p.isEmpty)
    let st := paras.foldl (splitStep maxChars) ([], [])
    if st.2 = [] then st.1 else st.1 ++ [stripCh st.2]

/-- Invariant carried through the paragraph loop: accumulated chunks are
bounded by `maxChars` and so is the buffer. -/
def SplitInv (m : Nat) (st : List (List Char) × List Char) : Prop :=
  (∀ q ∈ st.1, q.length ≤ m) ∧ st.2.length ≤ m

/-! ## The TOC range resolver and chunk builder (`chunk_by_toc`, documents.py 470–606) -/

/-- A row of `document_toc` as read back in `chunk_by_toc` (level, title,
page_from, order_index). -/
structure TocEntry where
  level : Int
  title : String
  pageFrom : Int
  orderIndex : Int
deriving DecidableEq, Repr

/-- A resolved section range (step 3 of `chunk_by_toc`). -/
structure SectionRange where
  level : Int
  title : String
  startPage : Int
  endPage : Int
  orderIndex : Int
deriving DecidableEq, Repr

/-- The inner scan of step 3: find the first later entry whose level is
`≤ lvl`; its `page_from - 1` (clamped to `≥ start`) is the end page, and the
total page count if there is none. -/
def findEnd (lvl start pageCount : Int) : List TocEntry → Int
  | [] => pageCount
  | e :: rest =>
    if e.level ≤ lvl then max (e.pageFrom - 1) start
    else findEnd lvl start pageCount rest

/-- Step 3 of `chunk_by_toc`: compute page ranges by "next same-or-higher". -/
def computeRanges : List TocEntry → Int → List SectionRange
  | [], _ => []
  | e :: rest, pageCount =>
    { level := e.level, title := e.title, startPage := e.pageFrom,
      endPage := findEnd e.level e.pageFrom pageCount rest,
      orderIndex := e.orderIndex } :: computeRanges rest pageCount

/-- Step 4 of `chunk_by_toc`, one heading: pad the title stack with `""` up to
`lvl` slots, truncate to `lvl` slots, write the title into slot `lvl`
(1-based).  Faithful for `level ≥ 1` (the `document_toc` invariant; Python
would raise an `IndexError` on `level ≤ 0`). -/
def pathStack (stack : List String) (lvl : Nat) (title : String) : List String :=
  let padded := if stack.length < lvl then stack ++ List.replicate (lvl - stack.length) "" else stack
  (padded.take lvl).set (lvl - 1) title

/-- `" > ".join(s for s in stack if s)`. -/
def joinPath (stack : List String) : String :=
  String.intercalate " > " (stack.filter (fun s => s ≠ ""))

/-- Step 4 of `chunk_by_toc`: hierarchical section paths, one per range. -/
def buildPathsGo (stack : List String) : List SectionRange → List String
  | [] => []
  | r :: rest =>
    let stack1 := pathStack stack r.level.toNat r.title
    joinPath stack1 :: buildPathsGo stack1 rest

def buildPaths (ranges : List SectionRange) : List String := buildPathsGo [] ranges

/-- Python `range(start, end + 1)` over `Int`. -/
def pageList (start stop : Int) : List Int :=
  (List.range (stop + 1 - start).toNat).map (fun i => start + (i : Int))

/-- A row destined for `document_chunks` (document id omitted: `chunk_by_toc`
works on a single document). -/
structure ChunkRow where
  sectionPath : String
  level : Int
  startPage : Int
  endPage : Int
  chunkIndex : Nat
  content : List Char
deriving DecidableEq, Repr

/-- Step 6 of `chunk_by_toc`, one `(range, section_path)` pair: gather the
text of the pages of the range that are present in `page_map`, join with a
blank line, trim; skip the range if empty, else split into pieces and emit
one row per piece. -/
def rowsFor (pageMap : List (Int × List Char)) (maxChars : Nat)
    (r : SectionRange) (path : String) : List ChunkRow :=
  let pagesText := (pageList r.startPage r.endPage).filterMap (fun p => pageMap.lookup p)
  let fullText := stripCh (joinSep ['\n', '\n'] pagesText)
  if fullText = [] then []
  else
    (_split_by_paragraphs fullText maxChars).enum.map (fun pr =>
      { sectionPath := path, level := r.level, startPage := r.startPage,
        endPage := r.endPage, chunkIndex := pr.1, content := pr.2 })

/-- The outcome of `chunk_by_toc`: the early returns at documents.py lines
513–514 and 563–564 report zero chunks with an explanatory note; otherwise
the rows are upserted and their count returned. -/
structure ChunkReport where
  chunksCreated : Nat
  note : Option String
  rows : List ChunkRow
deriving DecidableEq, Repr

/-- The pure core of `chunk_by_toc(doc_id, max_chars)` (documents.py 470–606):
inputs are the stored TOC rows (ordered by `order_index`), the PDF page count,
and the `document_pages` map. -/
def chunk_by_toc (entries : List TocEntry) (pageCount : Int)
    (pageMap : List (Int × List Char)) (maxChars : Nat) : ChunkReport :=
  if entries = [] then
    { chunksCreated := 0, note := some "No stored TOC found. Run /store-toc first.", rows := [] }
  else
    let ranges := computeRanges entries pageCount
    let paths := buildPaths ranges
    let rows := ((ranges.zip paths).map (fun rp => rowsFor pageMap maxChars rp.1 rp.2)).flatten
    if rows = [] then
      { chunksCreated := 0, note := some "No text found for TOC ranges. Ensure /parse-pages ran.",
        rows := [] }
    else
      { chunksCreated := rows.length, note := none, rows := rows }

/-! ## The embedding upsert helpers (C9)

`documents.py` line 691–715 refuses to persist a vector whose length is not
1536; `chunks.py` line 45–63 performs the same SQL upsert with **no** length
check.  Persisting is modelled as returning `Except.ok` with the row that the
`INSERT ... ON CONFLICT` statement would write; the refusal path raises
`RuntimeError`, modelled as `Except.error` with the message from the source. -/

/-- `_upsert_embedding(conn, chunk_id, vec, model_name)` from
`app/routers/documents.py` (the bulk `/embed` path). -/
def _upsert_embedding_documents (chunkId : Int) (vec : List Rat) (modelName : String) :
    Except String (Int × List Rat × String) :=
  if vec.length ≠ 1536 then
    Except.error ("Refusing to save embedding of length " ++ toString vec.length ++
      " (expected 1536). Check EMBEDDING_MODEL.")
  else
    Except.ok (chunkId, vec, modelName)

/-- `_upsert_embedding(conn, chunk_id, vec, model_name)` from
`app/routers/chunks.py` (the single-chunk `/embed` path): no dimension check. -/
def _upsert_embedding_chunks (chunkId : Int) (vec : List Rat) (modelName : String) :
    Except String (Int × List Rat × String) :=
  Except.ok (chunkId, vec, modelName)

/-! ## The hybrid search ranker (`semantic_search`, search.py 73–239)

A `Cand` is one row of the `rank_by` CTE: a chunk joined with its embedding.
The vector distance `dist` is the storage collaborator's output and is carried
as data (a rational); `lexicalHit` is the computed `LOWER(content) LIKE %s`
flag, also carried as data since the claims do not constrain its computation.
The SQL's `chunk_id` is the `document_chunks` primary key, so within one
candidate set all `chunkId`s are distinct; theorems that depend on the
tie-break take that as a hypothesis. -/

structure Cand where
  chunkId : Int
  documentId : Int
  sectionPath : Option String
  content : List Char
  dist : Rat
  lexicalHit : Bool
deriving DecidableEq, Repr

/-- Rational subtraction written with `mkRat`, so that concrete scores
evaluate by `decide` (`Rat.sub` is irreducible in this toolchain).
`ratSub_eq_sub` below shows it agrees with ordinary subtraction. -/
def ratSub (a b : Rat) : Rat := mkRat (a.num * b.den - b.num * a.den) (a.den * b.den)

/-- `combined = dist - 0.05 * lexical_hit` (search.py lines 111 and 140);
`0.05 * lexical_hit` is `1/20` when the lexical flag is set and `0` otherwise. -/
def combinedScore (c : Cand) : Rat :=
  ratSub c.dist (if c.lexicalHit then mkRat 1 20 else 0)

/-- The request model `SearchIn` (search.py 31–48), restricted to the fields
the ranking depends on.  Defaults: `exclude_section_exact = ["Dummy PDF file"]`,
`min_chars = 60`, `document_id = None`, `offset = 0`. -/
structure SearchIn where
  topK : Nat
  documentId : Option Int
  excludeSectionExact : List String
  minChars : Int
  offset : Nat
deriving Repr

/-- The WHERE fragments of search.py lines 90–107: document filter, minimum
content length (only if `min_chars > 0`), and exact section-path exclusion
(only if the exclusion list is non-empty, with `COALESCE(section_path, '')`). -/
def passesFilters (p : SearchIn) (c : Cand) : Bool :=
  (match p.documentId with
   | some d => decide (c.documentId = d)
   | none => true) &&
  (if 0 < p.minChars then decide (p.minChars ≤ (c.content.length : Int)) else true) &&
  (if p.excludeSectionExact = [] then true
   else decide (c.sectionPath.getD "" ∉ p.excludeSectionExact))

/-- The diversity grouping key `(document_id, COALESCE(section_path, ''))`. -/
def candKey (c : Cand) : Int × String := (c.documentId, c.sectionPath.getD "")

/-- The `ROW_NUMBER() ... ORDER BY combined ASC, dist ASC, chunk_id ASC` key. -/
def tripOf (c : Cand) : Rat × Rat × Int := (combinedScore c, c.dist, c.chunkId)

/-- Strict lexicographic order on `(combined, dist, chunk_id)`. -/
def tripLt (a b : Rat × Rat × Int) : Prop :=
  a.1 < b.1 ∨ (a.1 = b.1 ∧ (a.2.1 < b.2.1 ∨ (a.2.1 = b.2.1 ∧ a.2.2 < b.2.2)))

instance : DecidableRel tripLt := fun a b => by unfold tripLt; infer_instance

/-- `rn = 1` in the `best_per_section` CTE: a candidate survives iff no other
candidate of the same `(document_id, section_path)` group sorts strictly
before it under `(combined, dist, chunk_id)`. -/
def survives (cands : List Cand) (c : Cand) : Bool :=
  cands.all fun d =>
    !(decide (candKey d = candKey c)) || decide (d.chunkId = c.chunkId) ||
      decide (tripLt (tripOf c) (tripOf d))

/-- The diversity step (`best_per_section ... WHERE rn = 1`). -/
def bestPerSection (cands : List Cand) : List Cand := cands.filter (survives cands)

/-- `if c.lexicalHit then 1 else 0` as a natural number, for the global sort. -/
def hitN (c : Cand) : Nat := if c.lexicalHit then 1 else 0

/-- The global ordering of the `final` CTE as a boolean: `combined ASC,
dist ASC, lexical_hit DESC, chunk_id ASC`. -/
def finalLeB (c d : Cand) : Bool :=
  decide (combinedScore c < combinedScore d) ||
    (decide (combinedScore c = combinedScore d) &&
      (decide (c.dist < d.dist) ||
        (decide (c.dist = d.dist) &&
          (decide (hitN d < hitN c) ||
            (decide (hitN c = hitN d) && decide (c.chunkId ≤ d.chunkId))))))

/-- The global ordering of the `final` CTE. -/
def finalLe (c d : Cand) : Prop := finalLeB c d = true

instance : DecidableRel finalLe := fun c d => instDecidableEqBool (finalLeB c d) true

structure RankOut where
  results : List Cand
  nextOffset : Option Nat
deriving DecidableEq, Repr

/-- The page served for one request: candidates filtered, reduced to the best
chunk per section, globally ordered, then `LIMIT top_k OFFSET offset`. -/
def rankPage (p : SearchIn) (table : List Cand) : List Cand :=
  ((List.insertionSort finalLe (bestPerSection (table.filter (passesFilters p)))).drop
    p.offset).take p.topK

/-- The pure core of `semantic_search` (search.py 73–239): the served page and
`next_offset = offset + len(rows) if len(rows) == top_k else None` (line 228). -/
def semantic_search (p : SearchIn) (table : List Cand) : RankOut :=
  { results := rankPage p table,
    nextOffset :=
      if (rankPage p table).length = p.topK then some (p.offset + (rankPage p table).length)
      else none }

/-! ## The text normalizer (`normalize_text`, text_utils.py 52–83)

Python `str.replace` is modelled by `replaceAll` (left-to-right,
non-overlapping, continuing after each replacement), written with a fuel
argument equal to the string length so that it is structural.  The two
replacement tables and the zero-width strip list are transcribed, entry by
entry and in order, from `_MOJIBAKE_FIXES`, `_CANONICAL` and `_STRIP_CHARS`.

`unicodedata.normalize("NFKC", s)` is modelled per character: on the
repertoire this development evaluates (ASCII, and the characters occurring in
the two tables) the only characters with a non-identity NFKC image are
`…` (U+2026 → `...`), `™` (U+2122 → `TM`) and the no-break space
(U+00A0 → space), and no multi-character composition applies; `nfkcChar`
records exactly that, and is the identity elsewhere. -/

/-- `leads pat s` holds when `pat` is a prefix of `s`. -/
def leads : List Char → List Char → Bool
  | [], _ => true
  | _ :: _, [] => false
  | a :: as, b :: bs => a = b && leads as bs

/-- Python `s.replace(pat, rep)`, with explicit fuel (`fuel ≥ s.length`). -/
def replaceAllAux (pat rep : List Char) : Nat → List Char → List Char
  | _, [] => []
  | 0, s => s
  | fuel + 1, c :: rest =>
    if leads pat (c :: rest) then
      rep ++ replaceAllAux pat rep fuel ((c :: rest).drop pat.length)
    else c :: replaceAllAux pat rep fuel rest

def replaceAll (s pat rep : List Char) : List Char := replaceAllAux pat rep s.length s

/-- `_MOJIBAKE_FIXES`, in source (insertion) order. -/
def mojibakeFixes : List (List Char × List Char) :=
  [(['\u00e2', '\u20ac', '\u201c'], ['\u2013']),
   (['\u00e2', '\u20ac', '\u201d'], ['\u2014']),
   (['\u00e2', '\u20ac', '\u02dc'], ['\u2018']),
   (['\u00e2', '\u20ac', '\u2122'], ['\u2019']),
   (['\u00e2', '\u20ac', '\u0153'], ['\u201c']),
   (['\u00e2', '\u20ac', '\ufffd'], ['\u201d']),
   (['\u00e2', '\u20ac', '\u00a6'], ['\u2026']),
   (['\u00e2', '\u20ac', '\u00a2'], ['\u2022']),
   (['\u00c2'], []),
   (['\u00c2', '\u00a9'], ['\u00a9']),
   (['\u00c2', '\u00ae'], ['\u00ae']),
   (['\u00e2', '\u201e', '\u00a2'], ['\u2122']),
   (['\u00c2', '\u00b7'], ['\u00b7']),
   (['\u00c3', '\u2014'], ['\u00d7']),
   (['\u00e2', '\u02c6', '\u2019'], ['\u2212']),
   (['\u00e2', '\u00a6'], ['\u2026'])]

/-- `_CANONICAL`, in source order. -/
def canonicalTable : List (List Char × List Char) :=
  [(['\u2018'], ['\'']),
   (['\u2019'], ['\'']),
   (['\u201a'], ['\'']),
   (['\u201c'], ['"']),
   (['\u201d'], ['"']),
   (['\u201e'], ['"']),
   (['\u2013'], ['-']),
   (['\u2014'], ['-']),
   (['\u2022'], ['-'])]

/-- `_STRIP_CHARS` (zero-width space, BOM, word joiner, soft hyphen), each
removed by `s.replace(ch, "")`. -/
def stripCharsTable : List (List Char × List Char) :=
  [(['\u200b'], []), (['\ufeff'], []), (['\u2060'], []), (['\u00ad'], [])]

/-- Apply a replacement table entry by entry, in order. -/
def applyTable (tbl : List (List Char × List Char)) (s : List Char) : List Char :=
  tbl.foldl (fun acc pr => replaceAll acc pr.1 pr.2) s

/-- NFKC image of one character on the modelled repertoire (see section
comment). -/
def nfkcChar (c : Char) : List Char :=
  if c = '\u2026' then ['.', '.', '.']
  else if c = '\u2122' then ['T', 'M']
  else if c = '\u00a0' then [' ']
  else [c]

/-- `unicodedata.normalize("NFKC", s)` on the modelled repertoire. -/
def nfkc (s : List Char) : List Char := (s.map nfkcChar).flatten

/-- `re.sub(r"[ ]{3,}", " ", line)`: collapse every maximal run of three or
more spaces to a single space.  `n` counts spaces seen so far in the current
run. -/
def c3go : Nat → List Char → List Char
  | n, [] => if 3 ≤ n then [' '] else List.replicate n ' '
  | n, c :: rest =>
    if c = ' ' then c3go (n + 1) rest
    else (if 3 ≤ n then [' '] else List.replicate n ' ') ++ c :: c3go 0 rest

def collapse3 (l : List Char) : List Char := c3go 0 l

/-- Step 6 of `normalize_text`: `\r\n` then `\r` to `\n`. -/
def crFix (s : List Char) : List Char :=
  replaceAll (replaceAll s ['\r', '\n'] ['\n']) ['\r'] ['\n']

/-- Step 7 of `normalize_text`, per line: collapse space runs, then
`line.rstrip()`. -/
def lineFix (l : List Char) : List Char := rstripCh (collapse3 l)

/-- `normalize_text(s)` from `app/text_utils.py`: NFKC, mojibake repair,
punctuation canonicalization, no-break space, zero-width strip, newline
normalization, per-line space collapsing and right-trim, and a final trim. -/
def normalize_text (s : List Char) : List Char :=
  if s = [] then s
  else
    let s1 := nfkc s
    let s2 := applyTable mojibakeFixes s1
    let s3 := applyTable canonicalTable s2
    let s4 := replaceAll s3 ['\u00a0'] [' ']
    let s5 := applyTable stripCharsTable s4
    let s6 := crFix s5
    stripCh (joinNl ((splitOnNl s6).map lineFix))

/-! ### Predicates used in the idempotence analysis -/

/-- The string contains no run of three consecutive spaces. -/
def noTriple : List Char → Bool
  | [] => true
  | [_] => true
  | [_, _] => true
  | c1 :: c2 :: c3 :: rest =>
    !(decide (c1 = ' ') && decide (c2 = ' ') && decide (c3 = ' ')) &&
      noTriple (c2 :: c3 :: rest)

/-- `p` occurs as a contiguous segment of `v`. -/
def seqIn (p v : List Char) : Prop := ∃ a b, v = a ++ p ++ b

/-- The first character, if any, is not whitespace. -/
def headOk (l : List Char) : Prop := ∀ c, l.head? = some c → wsB c = false

/-- The last character, if any, is not whitespace. -/
def lastOk (l : List Char) : Prop := ∀ c, l.getLast? = some c → wsB c = false

/-- No whitespace character other than `\n` stands immediately before a
newline anywhere in `v` (all lines right-trimmed, except possibly the last). -/
def noTrailPair (v : List Char) : Prop :=
  ∀ x, wsB x = true → x ≠ '\n' → ¬ seqIn [x, '\n'] v

/-- Every character is ASCII. -/
def allAscii (s : List Char) : Prop := ∀ c ∈ s, c.toNat < 128

/-! ## Theorems about the TOC range resolver -/

theorem findEnd_ge_start {lvl start pageCount : Int} (rest : List TocEntry)
    (h : start ≤ pageCount) : start ≤ findEnd lvl start pageCount rest := by
  induction rest with
  | nil => exact h
  | cons e tl ih =>
    by_cases he : e.level ≤ lvl
    · simp [findEnd, he]
    · simpa [findEnd, he] using ih

/-- C1: the TOC range scenario.  Headings
`[(1,"A",1),(2,"A.1",2),(2,"A.2",5),(1,"B",9)]` with 10 pages total resolve to
ranges `A:[1,8]`, `A.1:[2,4]`, `A.2:[5,8]`, `B:[9,10]`: each entry's end page
is the start page minus one of the first later heading of level ≤ its own, and
the total page count when there is none. -/
theorem toc_range_scenario :
    computeRanges
      [⟨1, "A", 1, 1⟩, ⟨2, "A.1", 2, 2⟩, ⟨2, "A.2", 5, 3⟩, ⟨1, "B", 9, 4⟩] 10 =
      [⟨1, "A", 1, 8, 1⟩, ⟨2, "A.1", 2, 4, 2⟩, ⟨2, "A.2", 5, 8, 3⟩, ⟨1, "B", 9, 10, 4⟩] := by
  decide

/-- C6 counterexample: with a heading whose start page exceeds the total page
count and no later same-or-higher heading, `chunk_by_toc` produces a range with
`endPage < startPage` — the claim quantified over every heading list and page
count is false. -/
theorem range_endPage_ge_startPage_cex :
    ∃ r ∈ computeRanges [⟨1, "A", 11, 1⟩] 10, r.endPage < r.startPage := by
  decide

/-- C6 (amended): provided every heading's start page is at most the total page
count, every range produced by the resolver satisfies `endPage ≥ startPage`
(the scan clamps with `max(next_start - 1, start)`, and otherwise the end page
is the page count). -/
theorem range_endPage_ge_startPage (entries : List TocEntry) (pageCount : Int)
    (h : ∀ e ∈ entries, e.pageFrom ≤ pageCount) :
    ∀ r ∈ computeRanges entries pageCount, r.startPage ≤ r.endPage := by
  induction entries with
  | nil => intro r hr; simp [computeRanges] at hr
  | cons e tl ih =>
    intro r hr
    simp only [computeRanges, List.mem_cons] at hr
    rcases hr with hr | hr
    · subst hr
      exact findEnd_ge_start tl (h e (by simp))
    · exact ih (fun x hx => h x (List.mem_cons_of_mem _ hx)) r hr

/-- C6 witness: the amended theorem applied to the C1 scenario input. -/
theorem range_endPage_ge_startPage_witness :
    (∀ e ∈ [TocEntry.mk 1 "A" 1 1, TocEntry.mk 2 "A.1" 2 2], e.pageFrom ≤ (10 : Int)) ∧
    ∀ r ∈ computeRanges [TocEntry.mk 1 "A" 1 1, TocEntry.mk 2 "A.1" 2 2] 10,
      r.startPage ≤ r.endPage :=
  ⟨by decide, range_endPage_ge_startPage _ 10 (by decide)⟩

/-! ## Theorems about the paragraph splitter -/

theorem length_dropWhile_le_self (p : Char → Bool) (l : List Char) :
    (l.dropWhile p).length ≤ l.length := by
  induction l with
  | nil => simp
  | cons c rest ih =>
    by_cases h : p c
    · simp only [List.dropWhile_cons, h, if_true, List.length_cons]
      omega
    · simp [List.dropWhile_cons, h]

theorem length_stripCh_le (l : List Char) : (stripCh l).length ≤ l.length := by
  have h1 : (lstripCh l).length ≤ l.length := length_dropWhile_le_self wsB l
  have h2 : (rstripCh (lstripCh l)).length ≤ (lstripCh l).length := by
    simpa [rstripCh] using length_dropWhile_le_self wsB (lstripCh l).reverse
  exact le_trans h2 h1

theorem sliceFixedAux_length (m : Nat) (hm : 1 ≤ m) :
    ∀ fuel p, ∀ q ∈ sliceFixedAux m fuel p, q.length ≤ m := by
  intro fuel
  induction fuel with
  | zero => intro p q hq; cases p <;> simp [sliceFixedAux] at hq
  | succ n ih =>
    intro p q hq
    cases p with
    | nil => simp [sliceFixedAux] at hq
    | cons c rest =>
      simp only [sliceFixedAux, List.mem_cons] at hq
      rcases hq with hq | hq
      · subst hq
        simp only [List.length_cons, List.length_take]
        omega
      · exact ih _ q hq

theorem splitInv_mk (m : Nat) (a : List (List Char)) (b : List Char)
    (h1 : ∀ q ∈ a, q.length ≤ m) (h2 : b.length ≤ m) : SplitInv m (a, b) := ⟨h1, h2⟩

theorem splitStep_inv (m : Nat) (hm : 1 ≤ m) (st : List (List Char) × List Char)
    (p : List Char) (h : SplitInv m st) : SplitInv m (splitStep m st p) := by
  obtain ⟨hchunks, hbuf⟩ := h
  have hstrip : (stripCh st.2).length ≤ m := le_trans (length_stripCh_le _) hbuf
  have hslice : ∀ a ∈ sliceFixed m p, (stripCh a).length ≤ m :=
    fun a ha => le_trans (length_stripCh_le a) (sliceFixedAux_length m hm _ _ a ha)
  rcases st with ⟨chunks, buf⟩
  simp only at hchunks hbuf hstrip
  cases buf with
  | nil =>
    simp only [splitStep, eq_self_iff_true, if_true, List.length_nil]
    split_ifs with h1 h2
    · refine splitInv_mk m _ _ ?_ (by simp)
      intro q hq
      rcases List.mem_append.mp hq with hq | hq
      · exact hchunks q hq
      · obtain ⟨a, ha, rfl⟩ := List.mem_map.mp hq
        exact hslice a ha
    · exact splitInv_mk m _ _ hchunks (by omega)
    · refine splitInv_mk m _ _ ?_ (by omega)
      intro q hq
      rcases List.mem_append.mp hq with hq | hq
      · exact hchunks q hq
      · rcases List.mem_singleton.mp hq with rfl
        exact hstrip
  | cons b bs =>
    have hne : (b :: bs : List Char) ≠ [] := by simp
    simp only [splitStep, if_neg hne]
    split_ifs with h1 h2
    · refine splitInv_mk m _ _ ?_ (by simp)
      intro q hq
      rcases List.mem_append.mp hq with hq | hq
      · rcases List.mem_append.mp hq with hq | hq
        · exact hchunks q hq
        · rcases List.mem_singleton.mp hq with rfl
          exact hstrip
      · obtain ⟨a, ha, rfl⟩ := List.mem_map.mp hq
        exact hslice a ha
    · refine splitInv_mk m _ _ hchunks ?_
      simp only [List.length_append, List.length_cons] at h2 ⊢
      omega
    · refine splitInv_mk m _ _ ?_ (by omega)
      intro q hq
      rcases List.mem_append.mp hq with hq | hq
      · exact hchunks q hq
      · rcases List.mem_singleton.mp hq with rfl
        exact hstrip

theorem foldl_splitStep_inv (m : Nat) (hm : 1 ≤ m) (paras : List (List Char))
    (st : List (List Char) × List Char) (h : SplitInv m st) :
    SplitInv m (paras.foldl (splitStep m) st) := by
  induction paras generalizing st with
  | nil => exact h
  | cons p tl ih => exact ih _ (splitStep_inv m hm st p h)

/-- C4 counterexample: `_split_by_paragraphs("a b", 1)` hard-splits the single
oversized paragraph into the slices `"a"`, `" "`, `"b"` and strips each, so the
returned list contains an empty piece — "no piece is empty" is false. -/
theorem split_pieces_nonempty_cex :
    [] ∈ _split_by_paragraphs ("a b".toList) 1 := by decide

/-- C4 (amended): for every text and every `maxChars ≥ 1`, every piece returned
by `_split_by_paragraphs` has length at most `maxChars` (including hard-split
slices); pieces may however be empty when a fixed-length slice of an oversized
paragraph consists entirely of whitespace and is stripped to nothing. -/
theorem split_pieces_bounded (text : List Char) (m : Nat) (hm : 1 ≤ m) :
    ∀ q ∈ _split_by_paragraphs text m, q.length ≤ m := by
  intro q hq
  unfold _split_by_paragraphs at hq
  by_cases h1 : text.length ≤ m
  · simp only [h1, if_true] at hq
    by_cases h2 : text = [] <;> simp [h2] at hq
    subst hq; exact h1
  · simp only [h1, if_false] at hq
    have hinv := foldl_splitStep_inv m hm
      (((splitOn2 text).map stripCh).filter (fun p => !p.isEmpty)) ([], [])
      ⟨by simp, by simp⟩
    set st := (((splitOn2 text).map stripCh).filter (fun p => !p.isEmpty)).foldl
      (splitStep m) ([], []) with hst
    by_cases hb : st.2 = [] <;> simp only [hb, if_true, if_false] at hq
    · exact hinv.1 q hq
    · rcases List.mem_append.mp hq with hq | hq
      · exact hinv.1 q hq
      · rcases List.mem_singleton.mp hq with rfl
        exact le_trans (length_stripCh_le _) hinv.2

/-- C4 witness: the amended bound evaluated at `("a b", 1)`. -/
theorem split_pieces_bounded_witness :
    1 ≤ 1 ∧ ∀ q ∈ _split_by_paragraphs ("a b".toList) 1, q.length ≤ 1 :=
  ⟨le_refl 1, split_pieces_bounded ("a b".toList) 1 (le_refl 1)⟩

/-- C7 counterexample: `" a "` has length 3 ≤ 3 but the splitter returns the
text unchanged, not trimmed — the single returned element is `" a "`, not the
trimmed `"a"`. -/
theorem split_short_text_trimmed_cex :
    _split_by_paragraphs (" a ".toList) 3 ≠ [stripCh (" a ".toList)] := by decide

/-- C7 (amended): for text of length at most `maxChars`, the splitter returns
the empty sequence when the text is empty and otherwise the one-element
sequence containing the text unchanged (documents.py line 51–52 returns
`[text]`, without trimming). -/
theorem split_short_text (text : List Char) (m : Nat) (h : text.length ≤ m) :
    _split_by_paragraphs text m = if text.isEmpty then [] else [text] := by
  simp [_split_by_paragraphs, h]

/-- C7 witness: the amended statement evaluated at `(" a ", 3)`. -/
theorem split_short_text_witness :
    (" a ".toList.length ≤ 3) ∧
      _split_by_paragraphs (" a ".toList) 3 =
        (if (" a ".toList).isEmpty then [] else [" a ".toList]) :=
  ⟨by decide, split_short_text (" a ".toList) 3 (by decide)⟩

/-! ## Theorems about the chunk builder (C8) -/

/-- C8: the chunk builder never errors on empty input.  An empty stored TOC
returns zero chunks with the explanatory note of documents.py line 514, and a
range none of whose pages appear in `document_pages` contributes zero chunks
(the range is skipped at line 556), in both cases without raising. -/
theorem chunk_builder_graceful (entries : List TocEntry) (pageCount : Int)
    (pageMap : List (Int × List Char)) (maxChars : Nat) :
    (entries = [] → chunk_by_toc entries pageCount pageMap maxChars =
      { chunksCreated := 0, note := some "No stored TOC found. Run /store-toc first.",
        rows := [] }) ∧
    (∀ r path, (∀ p ∈ pageList r.startPage r.endPage, pageMap.lookup p = none) →
      rowsFor pageMap maxChars r path = []) := by
  constructor
  · intro h; subst h; rfl
  · intro r path habsent
    have hnone : (pageList r.startPage r.endPage).filterMap (fun p => pageMap.lookup p) = [] := by
      rw [List.filterMap_eq_nil_iff]
      exact habsent
    simp [rowsFor, hnone, joinSep, stripCh, lstripCh, rstripCh]

/-- C8 witness: the graceful behaviours at concrete inputs — an empty TOC and
a range `[2,3]` with page text present only for page 5. -/
theorem chunk_builder_graceful_witness :
    chunk_by_toc [] 5 [(5, ['x'])] 100 =
      { chunksCreated := 0, note := some "No stored TOC found. Run /store-toc first.",
        rows := [] } ∧
    rowsFor [(5, ['x'])] 100 ⟨1, "A", 2, 3, 1⟩ "A" = [] :=
  ⟨(chunk_builder_graceful [] 5 [(5, ['x'])] 100).1 rfl,
   (chunk_builder_graceful [] 5 [(5, ['x'])] 100).2 ⟨1, "A", 2, 3, 1⟩ "A" (by decide)⟩

/-- C9 counterexample: the single-chunk upsert persists a length-2 vector
instead of refusing it, so "every embedding write refuses a vector whose
length differs from 1536" is false on the code. -/
theorem embedding_write_refuses_cex :
    _upsert_embedding_chunks 1 [0, 0] "m" = Except.ok (1, [0, 0], "m") ∧
      ([(0 : Rat), 0].length ≠ 1536) := by
  exact ⟨rfl, by decide⟩

/-- C9 (amended): only the bulk document-embedding path refuses mismatched
vectors — `documents._upsert_embedding` errors on any vector whose length is
not 1536 and persists an exact-length vector unchanged, while
`chunks._upsert_embedding` performs no check and persists whatever vector it
is given. -/
theorem embedding_write_refuses (chunkId : Int) (vec : List Rat) (modelName : String)
    (h : vec.length ≠ 1536) :
    (∃ msg, _upsert_embedding_documents chunkId vec modelName = Except.error msg) ∧
      _upsert_embedding_chunks chunkId vec modelName = Except.ok (chunkId, vec, modelName) := by
  constructor
  · refine ⟨"Refusing to save embedding of length " ++ toString vec.length ++
      " (expected 1536). Check EMBEDDING_MODEL.", ?_⟩
    simp [_upsert_embedding_documents, h]
  · rfl

/-- C9 witness: the amended statement at a concrete length-2 vector. -/
theorem embedding_write_refuses_witness :
    ([(1 : Rat), 2].length ≠ 1536) ∧
      ((∃ msg, _upsert_embedding_documents 7 [1, 2] "m" = Except.error msg) ∧
        _upsert_embedding_chunks 7 [1, 2] "m" = Except.ok (7, [1, 2], "m")) :=
  ⟨by decide, embedding_write_refuses 7 [1, 2] "m" (by decide)⟩

/-! ## Theorems about the ranker -/

theorem ratSub_eq_sub (a b : Rat) : ratSub a b = a - b := by
  have ha : ((a.den : Rat)) ≠ 0 := by
    exact_mod_cast a.den_nz
  have hb : ((b.den : Rat)) ≠ 0 := by
    exact_mod_cast b.den_nz
  have h2 : a = (a.num : Rat) / a.den := (Rat.num_div_den a).symm
  have h3 : b = (b.num : Rat) / b.den := (Rat.num_div_den b).symm
  rw [ratSub, Rat.mkRat_eq_div]
  push_cast
  conv_rhs => rw [h2, h3]
  field_simp
  ring

theorem tripLt_trichotomy (a b : Rat × Rat × Int) : tripLt a b ∨ a = b ∨ tripLt b a := by
  obtain ⟨a1, a2, a3⟩ := a
  obtain ⟨b1, b2, b3⟩ := b
  simp only [tripLt, Prod.mk.injEq]
  rcases lt_trichotomy a1 b1 with h1 | h1 | h1 <;>
    rcases lt_trichotomy a2 b2 with h2 | h2 | h2 <;>
      rcases lt_trichotomy a3 b3 with h3 | h3 | h3 <;> tauto

theorem tripLt_asymm {a b : Rat × Rat × Int} (h1 : tripLt a b) (h2 : tripLt b a) : False := by
  obtain ⟨a1, a2, a3⟩ := a
  obtain ⟨b1, b2, b3⟩ := b
  simp only [tripLt] at h1 h2
  rcases h1 with h1 | ⟨e1, h1 | ⟨f1, g1⟩⟩ <;> rcases h2 with h2 | ⟨e2, h2 | ⟨f2, g2⟩⟩ <;>
    linarith

theorem tripLt_trans {a b c : Rat × Rat × Int} (h1 : tripLt a b) (h2 : tripLt b c) :
    tripLt a c := by
  obtain ⟨a1, a2, a3⟩ := a
  obtain ⟨b1, b2, b3⟩ := b
  obtain ⟨c1, c2, c3⟩ := c
  simp only [tripLt] at h1 h2 ⊢
  rcases h1 with h1 | ⟨e1, h1 | ⟨f1, g1⟩⟩ <;> rcases h2 with h2 | ⟨e2, h2 | ⟨f2, g2⟩⟩ <;>
    subst_vars <;>
      first
        | exact Or.inl (by linarith)
        | exact Or.inr ⟨rfl, Or.inl (by linarith)⟩
        | exact Or.inr ⟨rfl, Or.inr ⟨rfl, by omega⟩⟩

theorem survives_iff (cands : List Cand) (c : Cand) :
    survives cands c = true ↔
      ∀ d ∈ cands, candKey d = candKey c →
        d.chunkId = c.chunkId ∨ tripLt (tripOf c) (tripOf d) := by
  unfold survives
  rw [List.all_eq_true]
  constructor
  · intro h d hd hkey
    have hb := h d hd
    simp only [Bool.or_eq_true, Bool.not_eq_true', decide_eq_false_iff_not,
      decide_eq_true_eq] at hb
    tauto
  · intro h d hd
    simp only [Bool.or_eq_true, Bool.not_eq_true', decide_eq_false_iff_not,
      decide_eq_true_eq]
    by_cases hkey : candKey d = candKey c
    · rcases h d hd hkey with h' | h' <;> tauto
    · tauto

theorem pairwise_chunkId_inj (l : List Cand)
    (h : l.Pairwise fun a b => a.chunkId ≠ b.chunkId) :
    ∀ a ∈ l, ∀ b ∈ l, a.chunkId = b.chunkId → a = b := by
  induction l with
  | nil => simp
  | cons x t ih =>
    rcases List.pairwise_cons.mp h with ⟨hx, ht⟩
    intro a ha b hb hab
    rcases List.mem_cons.mp ha with ha' | ha'
    · rcases List.mem_cons.mp hb with hb' | hb'
      · rw [ha', hb']
      · exfalso
        rw [ha'] at hab
        exact hx b hb' hab
    · rcases List.mem_cons.mp hb with hb' | hb'
      · exfalso
        rw [hb'] at hab
        exact hx a ha' hab.symm
      · exact ih ht a ha' b hb' hab

theorem exists_trip_min (l : List Cand) (h : l ≠ []) :
    ∃ m ∈ l, ∀ x ∈ l, tripLt (tripOf m) (tripOf x) ∨ tripOf m = tripOf x := by
  induction l with
  | nil => exact absurd rfl h
  | cons c t ih =>
    by_cases ht : t = []
    · subst ht
      refine ⟨c, List.mem_cons_self c [], ?_⟩
      intro x hx
      rcases List.mem_singleton.mp hx with rfl
      exact Or.inr rfl
    · obtain ⟨m, hm, hmin⟩ := ih ht
      rcases tripLt_trichotomy (tripOf m) (tripOf c) with hlt | heq | hgt
      · refine ⟨m, List.mem_cons_of_mem _ hm, ?_⟩
        intro x hx
        rcases List.mem_cons.mp hx with rfl | hx
        · exact Or.inl hlt
        · exact hmin x hx
      · refine ⟨m, List.mem_cons_of_mem _ hm, ?_⟩
        intro x hx
        rcases List.mem_cons.mp hx with rfl | hx
        · exact Or.inr heq
        · exact hmin x hx
      · refine ⟨c, List.mem_cons_self c t, ?_⟩
        intro x hx
        rcases List.mem_cons.mp hx with rfl | hx
        · exact Or.inr rfl
        · rcases hmin x hx with h' | h'
          · exact Or.inl (tripLt_trans hgt h')
          · exact Or.inl (h' ▸ hgt)

/-- C2: after the diversity step of `semantic_search` (pre-pagination), no two
surviving candidates share `(documentId, COALESCE(sectionPath, ''))`; each
survivor is minimal in its group under `(combinedScore, dist, chunkId)`; and
every non-empty group has a survivor.  The hypothesis that chunk ids are
pairwise distinct holds in the source because `chunk_id` is the
`document_chunks` primary key and joins once with `chunk_embeddings`. -/
theorem rank_diversity (table : List Cand) (p : SearchIn)
    (hids : (table.filter (passesFilters p)).Pairwise fun a b => a.chunkId ≠ b.chunkId) :
    (∀ c1 ∈ bestPerSection (table.filter (passesFilters p)),
      ∀ c2 ∈ bestPerSection (table.filter (passesFilters p)),
        candKey c1 = candKey c2 → c1 = c2) ∧
    (∀ c ∈ bestPerSection (table.filter (passesFilters p)),
      ∀ d ∈ table.filter (passesFilters p), candKey d = candKey c →
        tripLt (tripOf c) (tripOf d) ∨ tripOf c = tripOf d) ∧
    (∀ d ∈ table.filter (passesFilters p),
      ∃ c ∈ bestPerSection (table.filter (passesFilters p)), candKey c = candKey d) := by
  set cands := table.filter (passesFilters p) with hcands
  have hinj := pairwise_chunkId_inj cands hids
  refine ⟨?_, ?_, ?_⟩
  · intro c1 h1 c2 h2 hkey
    obtain ⟨hm1, hs1⟩ := List.mem_filter.mp h1
    obtain ⟨hm2, hs2⟩ := List.mem_filter.mp h2
    have hc1 := (survives_iff cands c1).mp hs1 c2 hm2 hkey.symm
    have hc2 := (survives_iff cands c2).mp hs2 c1 hm1 hkey
    rcases hc1 with hid | hlt1
    · exact hinj c1 hm1 c2 hm2 hid.symm
    · rcases hc2 with hid | hlt2
      · exact hinj c1 hm1 c2 hm2 hid
      · exact absurd hlt1 (fun h => tripLt_asymm h hlt2)
  · intro c hc d hd hkey
    obtain ⟨hmc, hsc⟩ := List.mem_filter.mp hc
    rcases (survives_iff cands c).mp hsc d hd hkey with hid | hlt
    · have : d = c := hinj d hd c hmc hid
      subst this
      exact Or.inr rfl
    · exact Or.inl hlt
  · intro d hd
    have hdg : d ∈ cands.filter (fun x => decide (candKey x = candKey d)) :=
      List.mem_filter.mpr ⟨hd, by simp⟩
    have hne : cands.filter (fun x => decide (candKey x = candKey d)) ≠ [] :=
      List.ne_nil_of_mem hdg
    obtain ⟨m, hmg, hmin⟩ := exists_trip_min _ hne
    obtain ⟨hmc, hmkey⟩ := List.mem_filter.mp hmg
    have hmkey' : candKey m = candKey d := of_decide_eq_true hmkey
    refine ⟨m, List.mem_filter.mpr ⟨hmc, ?_⟩, hmkey'⟩
    rw [survives_iff]
    intro e he hekey
    have heg : e ∈ cands.filter (fun x => decide (candKey x = candKey d)) :=
      List.mem_filter.mpr ⟨he, by simp [hekey.trans hmkey']⟩
    rcases hmin e heg with hlt | heq
    · exact Or.inr hlt
    · exact Or.inl (congrArg (fun t => t.2.2) heq).symm

/-- C2 witness: two same-section candidates and the diversity conclusions at
that concrete input. -/
theorem rank_diversity_witness :
    ([(⟨1, 1, some "s", [], 1, false⟩ : Cand), ⟨2, 1, some "s", [], 2, false⟩].filter
        (passesFilters ⟨5, none, [], 0, 0⟩)).Pairwise (fun a b => a.chunkId ≠ b.chunkId) ∧
    ((∀ c1 ∈ bestPerSection ([(⟨1, 1, some "s", [], 1, false⟩ : Cand),
          ⟨2, 1, some "s", [], 2, false⟩].filter (passesFilters ⟨5, none, [], 0, 0⟩)),
        ∀ c2 ∈ bestPerSection ([(⟨1, 1, some "s", [], 1, false⟩ : Cand),
          ⟨2, 1, some "s", [], 2, false⟩].filter (passesFilters ⟨5, none, [], 0, 0⟩)),
          candKey c1 = candKey c2 → c1 = c2) ∧
      (∀ c ∈ bestPerSection ([(⟨1, 1, some "s", [], 1, false⟩ : Cand),
          ⟨2, 1, some "s", [], 2, false⟩].filter (passesFilters ⟨5, none, [], 0, 0⟩)),
        ∀ d ∈ [(⟨1, 1, some "s", [], 1, false⟩ : Cand),
          ⟨2, 1, some "s", [], 2, false⟩].filter (passesFilters ⟨5, none, [], 0, 0⟩),
          candKey d = candKey c →
            tripLt (tripOf c) (tripOf d) ∨ tripOf c = tripOf d) ∧
      (∀ d ∈ [(⟨1, 1, some "s", [], 1, false⟩ : Cand),
          ⟨2, 1, some "s", [], 2, false⟩].filter (passesFilters ⟨5, none, [], 0, 0⟩),
        ∃ c ∈ bestPerSection ([(⟨1, 1, some "s", [], 1, false⟩ : Cand),
          ⟨2, 1, some "s", [], 2, false⟩].filter (passesFilters ⟨5, none, [], 0, 0⟩)),
          candKey c = candKey d)) :=
  ⟨by decide,
   rank_diversity [⟨1, 1, some "s", [], 1, false⟩, ⟨2, 1, some "s", [], 2, false⟩]
     ⟨5, none, [], 0, 0⟩ (by decide)⟩

/-- C3: `next_offset` equals `offset + len(page)` exactly when the page is
full (`len(page) == top_k`), and is absent whenever the page holds fewer than
`top_k` results (search.py line 228). -/
theorem rank_pagination (table : List Cand) (p : SearchIn) :
    ((semantic_search p table).results.length = p.topK →
      (semantic_search p table).nextOffset =
        some (p.offset + (semantic_search p table).results.length)) ∧
    ((semantic_search p table).results.length < p.topK →
      (semantic_search p table).nextOffset = none) := by
  unfold semantic_search
  simp only
  constructor
  · intro h
    rw [if_pos h]
  · intro h
    rw [if_neg (by omega)]

/-- C3 witness: three distinct-section candidates with `top_k = 3` fill the
page, and the theorem yields `next_offset = offset + 3`. -/
theorem rank_pagination_witness :
    (semantic_search ⟨3, none, [], 0, 0⟩
        [(⟨1, 1, some "a", [], 1, false⟩ : Cand), ⟨2, 1, some "b", [], 2, false⟩,
          ⟨3, 2, some "a", [], 3, false⟩]).results.length = 3 ∧
    (semantic_search ⟨3, none, [], 0, 0⟩
        [(⟨1, 1, some "a", [], 1, false⟩ : Cand), ⟨2, 1, some "b", [], 2, false⟩,
          ⟨3, 2, some "a", [], 3, false⟩]).nextOffset =
      some ((0 : Nat) +
        (semantic_search ⟨3, none, [], 0, 0⟩
          [(⟨1, 1, some "a", [], 1, false⟩ : Cand), ⟨2, 1, some "b", [], 2, false⟩,
            ⟨3, 2, some "a", [], 3, false⟩]).results.length) :=
  ⟨by decide,
   (rank_pagination
     [⟨1, 1, some "a", [], 1, false⟩, ⟨2, 1, some "b", [], 2, false⟩,
       ⟨3, 2, some "a", [], 3, false⟩] ⟨3, none, [], 0, 0⟩).1 (by decide)⟩

/-- C10: with the filter fields left at their defaults
(`document_id = None`, `exclude_section_exact = ["Dummy PDF file"]`,
`min_chars = 60`), every returned result comes from a chunk whose content has
at least 60 characters and whose section path (null coalesced to `""`) is not
exactly `"Dummy PDF file"` — the two filters are active by default. -/
theorem default_filters_active (topK offset : Nat) (table : List Cand) :
    ∀ r ∈ (semantic_search ⟨topK, none, ["Dummy PDF file"], 60, offset⟩ table).results,
      60 ≤ (r.content.length : Int) ∧ r.sectionPath.getD "" ≠ "Dummy PDF file" := by
  intro r hr
  have hsorted : r ∈ List.insertionSort finalLe (bestPerSection
      (table.filter (passesFilters ⟨topK, none, ["Dummy PDF file"], 60, offset⟩))) :=
    List.drop_subset _ _ (List.take_subset _ _ hr)
  have hbest : r ∈ bestPerSection
      (table.filter (passesFilters ⟨topK, none, ["Dummy PDF file"], 60, offset⟩)) :=
    (List.perm_insertionSort finalLe _).mem_iff.mp hsorted
  have hcand : r ∈ table.filter (passesFilters ⟨topK, none, ["Dummy PDF file"], 60, offset⟩) :=
    (List.mem_filter.mp hbest).1
  have hpass := (List.mem_filter.mp hcand).2
  simp [passesFilters] at hpass
  constructor
  · exact_mod_cast hpass.1
  · exact hpass.2

/-- C10 witness: a 60-character chunk in section `"Intro"` is returned under
the default filters and satisfies both conclusions. -/
theorem default_filters_active_witness :
    (⟨5, 3, some "Intro", List.replicate 60 'a', 1, false⟩ : Cand) ∈
      (semantic_search ⟨5, none, ["Dummy PDF file"], 60, 0⟩
        [⟨5, 3, some "Intro", List.replicate 60 'a', 1, false⟩]).results ∧
    (60 ≤ (((⟨5, 3, some "Intro", List.replicate 60 'a', 1, false⟩ : Cand)).content.length : Int) ∧
      ((⟨5, 3, some "Intro", List.replicate 60 'a', 1, false⟩ : Cand)).sectionPath.getD "" ≠
        "Dummy PDF file") :=
  ⟨by decide,
   default_filters_active 5 0 [⟨5, 3, some "Intro", List.replicate 60 'a', 1, false⟩]
     ⟨5, 3, some "Intro", List.replicate 60 'a', 1, false⟩ (by decide)⟩

/-! ## Theorems about the text normalizer -/

/-- C5 counterexample: the mojibake repair maps `"â€¦"` to `"…"` *after* the
NFKC pass, so the first normalization returns `"…"`; a second normalization's
NFKC pass expands `"…"` to `"..."` — `normalize` is not idempotent. -/
theorem normalize_idempotent_cex :
    normalize_text (normalize_text ['â', '€', '¦']) ≠
      normalize_text ['â', '€', '¦'] := by decide

/-! ### Trimming lemmas -/

theorem dropWhile_head_not_ws (l : List Char) :
    ∀ c, (l.dropWhile wsB).head? = some c → wsB c = false := by
  induction l with
  | nil => intro c hc; simp at hc
  | cons a rest ih =>
    intro c hc
    by_cases h : wsB a
    · rw [List.dropWhile_cons, if_pos h] at hc
      exact ih c hc
    · rw [List.dropWhile_cons, if_neg h] at hc
      simp only [List.head?_cons, Option.some.injEq] at hc
      rw [← hc]
      simpa using h

theorem dropWhile_eq_self_of_headOk (l : List Char)
    (h : ∀ c, l.head? = some c → wsB c = false) : l.dropWhile wsB = l := by
  cases l with
  | nil => rfl
  | cons a rest =>
    have ha := h a rfl
    rw [List.dropWhile_cons, if_neg (by simp [ha])]

theorem headOk_of_dropWhile_eq_self (l : List Char) (h : l.dropWhile wsB = l) :
    ∀ c, l.head? = some c → wsB c = false := by
  cases l with
  | nil => intro c hc; simp at hc
  | cons a rest =>
    intro c hc
    simp only [List.head?_cons, Option.some.injEq] at hc
    rw [← hc]
    by_cases hw : wsB a
    · rw [List.dropWhile_cons, if_pos hw] at h
      have hlen := congrArg List.length h
      have hle := length_dropWhile_le_self wsB rest
      simp at hlen
      omega
    · simpa using hw

theorem rstripCh_eq_self_iff (l : List Char) : rstripCh l = l ↔ lastOk l := by
  unfold rstripCh lastOk
  constructor
  · intro h c hc
    have h2 : l.reverse.dropWhile wsB = l.reverse := by
      rw [← List.reverse_inj, List.reverse_reverse] at h
      exact h.symm ▸ rfl
    rw [← List.head?_reverse] at hc
    exact headOk_of_dropWhile_eq_self l.reverse h2 c hc
  · intro h
    have h2 : l.reverse.dropWhile wsB = l.reverse := by
      refine dropWhile_eq_self_of_headOk l.reverse ?_
      intro c hc
      rw [List.head?_reverse] at hc
      exact h c hc
    rw [h2, List.reverse_reverse]

theorem lastOk_rstripCh (l : List Char) : lastOk (rstripCh l) := by
  intro c hc
  rw [← List.head?_reverse] at hc
  rw [rstripCh, List.reverse_reverse] at hc
  exact dropWhile_head_not_ws l.reverse c hc

theorem rstripCh_idem (l : List Char) : rstripCh (rstripCh l) = rstripCh l :=
  (rstripCh_eq_self_iff _).mpr (lastOk_rstripCh l)

theorem rstripCh_append (l : List Char) : ∃ b, l = rstripCh l ++ b := by
  refine ⟨(l.reverse.takeWhile wsB).reverse, ?_⟩
  rw [rstripCh, ← List.reverse_append, List.takeWhile_append_dropWhile, List.reverse_reverse]

theorem lstripCh_append (l : List Char) : ∃ a, l = a ++ lstripCh l :=
  ⟨l.takeWhile wsB, (List.takeWhile_append_dropWhile wsB l).symm⟩

theorem stripCh_seqIn (l : List Char) : seqIn (stripCh l) l := by
  obtain ⟨a, ha⟩ := lstripCh_append l
  obtain ⟨b, hb⟩ := rstripCh_append (lstripCh l)
  refine ⟨a, b, ?_⟩
  conv_lhs => rw [ha, hb]
  simp [stripCh, List.append_assoc]

theorem headOk_lstripCh (l : List Char) : headOk (lstripCh l) :=
  dropWhile_head_not_ws l

theorem headOk_rstripCh_of (u : List Char) (h : headOk u) : headOk (rstripCh u) := by
  intro c hc
  obtain ⟨b, hb⟩ := rstripCh_append u
  cases hr : rstripCh u with
  | nil => rw [hr] at hc; simp at hc
  | cons x xs =>
    rw [hr] at hc
    simp only [List.head?_cons, Option.some.injEq] at hc
    rw [← hc]
    refine h x ?_
    rw [hb, hr]
    rfl

theorem headOk_stripCh (l : List Char) : headOk (stripCh l) :=
  headOk_rstripCh_of _ (headOk_lstripCh l)

theorem lastOk_stripCh (l : List Char) : lastOk (stripCh l) := lastOk_rstripCh _

theorem stripCh_eq_self (l : List Char) (h1 : headOk l) (h2 : lastOk l) :
    stripCh l = l := by
  rw [stripCh, lstripCh, dropWhile_eq_self_of_headOk l h1]
  exact (rstripCh_eq_self_iff l).mpr h2

theorem stripCh_idem (l : List Char) : stripCh (stripCh l) = stripCh l :=
  stripCh_eq_self _ (headOk_stripCh l) (lastOk_stripCh l)

theorem mem_rstripCh (u : List Char) (c : Char) (h : c ∈ rstripCh u) : c ∈ u := by
  obtain ⟨b, hb⟩ := rstripCh_append u
  rw [hb]
  exact List.mem_append.mpr (Or.inl h)

theorem mem_stripCh (l : List Char) (c : Char) (h : c ∈ stripCh l) : c ∈ l := by
  obtain ⟨a, ha⟩ := lstripCh_append l
  have h1 : c ∈ lstripCh l := mem_rstripCh _ c h
  rw [ha]
  exact List.mem_append.mpr (Or.inr h1)

/-! ### Line splitting and joining -/

theorem splitOnNl_ne_nil (v : List Char) : splitOnNl v ≠ [] := by
  cases v with
  | nil => simp [splitOnNl]
  | cons c rest =>
    by_cases hc : c = '\n'
    · simp [splitOnNl, hc]
    · cases h : splitOnNl rest <;> simp [splitOnNl, hc, h]

theorem splitOnNl_cons_nl (v : List Char) : splitOnNl ('\n' :: v) = [] :: splitOnNl v := by
  simp [splitOnNl]

theorem splitOnNl_cons_ne (c : Char) (v h : List Char) (t : List (List Char))
    (hc : c ≠ '\n') (hs : splitOnNl v = h :: t) :
    splitOnNl (c :: v) = (c :: h) :: t := by
  simp [splitOnNl, hc, hs]

theorem joinNl_cons_cons (x y : List Char) (ls : List (List Char)) :
    joinNl (x :: y :: ls) = x ++ '\n' :: joinNl (y :: ls) := rfl

theorem nl_not_mem_lines (v : List Char) : ∀ l ∈ splitOnNl v, '\n' ∉ l := by
  induction v with
  | nil =>
    intro l hl
    simp [splitOnNl] at hl
    simp [hl]
  | cons c rest ih =>
    intro l hl
    by_cases hc : c = '\n'
    · subst hc
      rw [splitOnNl_cons_nl] at hl
      rcases List.mem_cons.mp hl with rfl | hl
      · simp
      · exact ih l hl
    · obtain ⟨h, t, hs⟩ : ∃ h t, splitOnNl rest = h :: t := by
        cases hsp : splitOnNl rest with
        | nil => exact absurd hsp (splitOnNl_ne_nil rest)
        | cons a b => exact ⟨a, b, rfl⟩
      rw [splitOnNl_cons_ne c rest h t hc hs] at hl
      rcases List.mem_cons.mp hl with rfl | hl
      · intro hmem
        rcases List.mem_cons.mp hmem with heq | hmem
        · exact hc heq.symm
        · exact ih h (hs ▸ List.mem_cons_self h t) hmem
      · exact ih l (hs ▸ List.mem_cons_of_mem h hl)

theorem joinNl_splitOnNl (v : List Char) : joinNl (splitOnNl v) = v := by
  induction v with
  | nil => rfl
  | cons c rest ih =>
    obtain ⟨h, t, hs⟩ : ∃ h t, splitOnNl rest = h :: t := by
      cases hsp : splitOnNl rest with
      | nil => exact absurd hsp (splitOnNl_ne_nil rest)
      | cons a b => exact ⟨a, b, rfl⟩
    by_cases hc : c = '\n'
    · subst hc
      rw [splitOnNl_cons_nl, hs, joinNl_cons_cons]
      rw [hs] at ih
      simpa using ih
    · rw [splitOnNl_cons_ne c rest h t hc hs]
      rw [hs] at ih
      cases t with
      | nil => simpa [joinNl] using congrArg (fun z => c :: z) ih
      | cons t1 ts =>
        rw [joinNl_cons_cons] at ih ⊢
        rw [← ih]
        rfl

theorem splitOnNl_no_nl (l : List Char) (h : '\n' ∉ l) : splitOnNl l = [l] := by
  induction l with
  | nil => rfl
  | cons c rest ih =>
    have hc : c ≠ '\n' := fun hcc => h (hcc ▸ List.mem_cons_self c rest)
    have hr : '\n' ∉ rest := fun hm => h (List.mem_cons_of_mem c hm)
    exact splitOnNl_cons_ne c rest rest [] hc (ih hr)

theorem splitOnNl_append_left (l b : List Char) (h : List Char) (t : List (List Char))
    (hnl : '\n' ∉ l) (hb : splitOnNl b = h :: t) :
    splitOnNl (l ++ b) = (l ++ h) :: t := by
  induction l with
  | nil => simpa using hb
  | cons c l' ih =>
    have hc : c ≠ '\n' := fun hcc => hnl (hcc ▸ List.mem_cons_self c l')
    have hr : '\n' ∉ l' := fun hm => hnl (List.mem_cons_of_mem c hm)
    rw [List.cons_append, splitOnNl_cons_ne c (l' ++ b) (l' ++ h) t hc (ih hr)]
    rfl

theorem splitOnNl_joinNl (ls : List (List Char)) (hne : ls ≠ [])
    (hnl : ∀ l ∈ ls, '\n' ∉ l) : splitOnNl (joinNl ls) = ls := by
  induction ls with
  | nil => exact absurd rfl hne
  | cons l ls' ih =>
    cases ls' with
    | nil => exact splitOnNl_no_nl l (hnl l (List.mem_cons_self l []))
    | cons l2 ls'' =>
      rw [joinNl_cons_cons]
      have hrec : splitOnNl (joinNl (l2 :: ls'')) = l2 :: ls'' :=
        ih (by simp) (fun x hx => hnl x (List.mem_cons_of_mem l hx))
      have hb : splitOnNl ('\n' :: joinNl (l2 :: ls'')) = [] :: l2 :: ls'' := by
        rw [splitOnNl_cons_nl, hrec]
      rw [splitOnNl_append_left l _ [] (l2 :: ls'')
        (hnl l (List.mem_cons_self l _)) hb]
      simp

theorem lines_decomp (v : List Char) (h : List Char) (t : List (List Char))
    (hs : splitOnNl v = h :: t) :
    (t = [] ∧ v = h) ∨ ∃ v', v = h ++ '\n' :: v' ∧ splitOnNl v' = t := by
  cases t with
  | nil =>
    left
    refine ⟨rfl, ?_⟩
    have := joinNl_splitOnNl v
    rw [hs] at this
    simpa [joinNl] using this.symm
  | cons t1 ts =>
    right
    refine ⟨joinNl (t1 :: ts), ?_, ?_⟩
    · have := joinNl_splitOnNl v
      rw [hs, joinNl_cons_cons] at this
      exact this.symm
    · refine splitOnNl_joinNl (t1 :: ts) (by simp) ?_
      intro x hx
      exact nl_not_mem_lines v x (hs ▸ List.mem_cons_of_mem h hx)

/-! ### Segment occurrence -/

theorem seqIn_of_seqIn {p u v : List Char} (h1 : seqIn p u) (h2 : seqIn u v) :
    seqIn p v := by
  obtain ⟨a, b, hu⟩ := h1
  obtain ⟨c, d, hv⟩ := h2
  exact ⟨c ++ a, b ++ d, by rw [hv, hu]; simp⟩

theorem seqIn_cons_iff (p : List Char) (c : Char) (v : List Char) :
    seqIn p (c :: v) ↔ (∃ b, c :: v = p ++ b) ∨ seqIn p v := by
  constructor
  · rintro ⟨a, b, h⟩
    cases a with
    | nil => exact Or.inl ⟨b, by simpa using h⟩
    | cons a0 as =>
      simp only [List.cons_append, List.cons.injEq] at h
      exact Or.inr ⟨as, b, h.2⟩
  · rintro (⟨b, h⟩ | ⟨a, b, h⟩)
    · exact ⟨[], b, by simpa using h⟩
    · exact ⟨c :: a, b, by simp [h]⟩

theorem seqIn_cons_of (p : List Char) (c : Char) (v : List Char) (h : seqIn p v) :
    seqIn p (c :: v) := (seqIn_cons_iff p c v).mpr (Or.inr h)

theorem mem_of_seqIn {p v : List Char} {c : Char} (hc : c ∈ p) (h : seqIn p v) :
    c ∈ v := by
  obtain ⟨a, b, hv⟩ := h
  rw [hv]
  simp [hc]

theorem seqIn_of_mem_joinNl (l : List Char) (ls : List (List Char)) (h : l ∈ ls) :
    seqIn l (joinNl ls) := by
  induction ls with
  | nil => simp at h
  | cons x ls' ih =>
    rcases List.mem_cons.mp h with rfl | h'
    · cases ls' with
      | nil => exact ⟨[], [], by simp [joinNl]⟩
      | cons y ys =>
        exact ⟨[], '\n' :: joinNl (y :: ys), by rw [joinNl_cons_cons]; rfl⟩
    · cases ls' with
      | nil => simp at h'
      | cons y ys =>
        obtain ⟨a, b, hab⟩ := ih h'
        exact ⟨x ++ '\n' :: a, b, by rw [joinNl_cons_cons, hab]; simp⟩

theorem seqIn_line (v l : List Char) (h : l ∈ splitOnNl v) : seqIn l v := by
  have := seqIn_of_mem_joinNl l (splitOnNl v) h
  rwa [joinNl_splitOnNl] at this

theorem mem_of_mem_line (v l : List Char) (hl : l ∈ splitOnNl v) {c : Char}
    (hc : c ∈ l) : c ∈ v := mem_of_seqIn hc (seqIn_line v l hl)

/-- A newline-free segment of `w` lies inside one of `w`'s lines. -/
theorem seqIn_line_of_seqIn (w : List Char) : ∀ p : List Char, '\n' ∉ p →
    seqIn p w → ∃ l ∈ splitOnNl w, seqIn p l := by
  induction w with
  | nil =>
    intro p hnl h
    obtain ⟨a, b, hab⟩ := h
    have : p = [] := by
      rcases List.append_eq_nil.mp hab.symm with ⟨h1, h2⟩
      exact (List.append_eq_nil.mp h1).2
    subst this
    exact ⟨[], by simp [splitOnNl], ⟨[], [], rfl⟩⟩
  | cons c w' ih =>
    intro p hnl h
    obtain ⟨hw, tw, hsw⟩ : ∃ hw tw, splitOnNl w' = hw :: tw := by
      cases hsp : splitOnNl w' with
      | nil => exact absurd hsp (splitOnNl_ne_nil w')
      | cons a b => exact ⟨a, b, rfl⟩
    rcases (seqIn_cons_iff p c w').mp h with ⟨b, hb⟩ | hseq
    · cases p with
      | nil =>
        refine ⟨(splitOnNl (c :: w')).headD [], ?_, ⟨[], _, rfl⟩⟩
        cases hsp : splitOnNl (c :: w') with
        | nil => exact absurd hsp (splitOnNl_ne_nil _)
        | cons a bb => simp
      | cons p0 ps =>
        simp only [List.cons_append, List.cons.injEq] at hb
        obtain ⟨rfl, hw'⟩ := hb
        have hcnl : c ≠ '\n' := fun hcc => hnl (hcc ▸ List.mem_cons_self c ps)
        have hps : '\n' ∉ ps := fun hm => hnl (List.mem_cons_of_mem c hm)
        obtain ⟨hb0, tb0, hsb⟩ : ∃ hb0 tb0, splitOnNl b = hb0 :: tb0 := by
          cases hsp : splitOnNl b with
          | nil => exact absurd hsp (splitOnNl_ne_nil b)
          | cons a bb => exact ⟨a, bb, rfl⟩
        have hw'lines : splitOnNl w' = (ps ++ hb0) :: tb0 := by
          rw [hw']
          exact splitOnNl_append_left ps b hb0 tb0 hps hsb
        rw [splitOnNl_cons_ne c w' (ps ++ hb0) tb0 hcnl hw'lines]
        refine ⟨c :: (ps ++ hb0), List.mem_cons_self _ _, ⟨[], hb0, by simp⟩⟩
    · obtain ⟨l, hl, hpl⟩ := ih p hnl hseq
      by_cases hc : c = '\n'
      · subst hc
        rw [splitOnNl_cons_nl]
        exact ⟨l, List.mem_cons_of_mem [] hl, hpl⟩
      · rw [hsw] at hl
        rw [splitOnNl_cons_ne c w' hw tw hc hsw]
        rcases List.mem_cons.mp hl with rfl | hl'
        · exact ⟨c :: l, List.mem_cons_self _ _, seqIn_cons_of p c l hpl⟩
        · exact ⟨l, List.mem_cons_of_mem _ hl', hpl⟩

/-- Every line is bounded on the right by a newline or by the end of the
string. -/
theorem line_boundary : ∀ (n : Nat) (v : List Char), v.length ≤ n →
    ∀ l ∈ splitOnNl v, seqIn (l ++ ['\n']) v ∨ ∃ a, v = a ++ l := by
  intro n
  induction n with
  | zero =>
    intro v hv l hl
    have : v = [] := List.length_eq_zero.mp (Nat.le_zero.mp hv)
    subst this
    simp [splitOnNl] at hl
    subst hl
    exact Or.inr ⟨[], rfl⟩
  | succ n ih =>
    intro v hv l hl
    obtain ⟨h, t, hs⟩ : ∃ h t, splitOnNl v = h :: t := by
      cases hsp : splitOnNl v with
      | nil => exact absurd hsp (splitOnNl_ne_nil v)
      | cons a b => exact ⟨a, b, rfl⟩
    rw [hs] at hl
    rcases lines_decomp v h t hs with ⟨rfl, rfl⟩ | ⟨v', rfl, hs'⟩
    · rcases List.mem_cons.mp hl with rfl | hl'
      · exact Or.inr ⟨[], rfl⟩
      · simp at hl'
    · rcases List.mem_cons.mp hl with rfl | hl'
      · exact Or.inl ⟨[], v', by simp⟩
      · have hlen : v'.length ≤ n := by
          have := hv
          simp only [List.length_append, List.length_cons] at this
          omega
        rcases ih v' hlen l (hs' ▸ hl') with hseq | ⟨a, ha⟩
        · refine Or.inl (seqIn_of_seqIn hseq ⟨h ++ ['\n'], [], by simp⟩)
        · exact Or.inr ⟨h ++ '\n' :: a, by rw [ha]; simp⟩

/-- A whitespace character standing immediately before a newline is the last
character of some line. -/
theorem trailing_pair_line (v : List Char) : ∀ x : Char, x ≠ '\n' →
    seqIn [x, '\n'] v → ∃ l ∈ splitOnNl v, l.getLast? = some x := by
  induction v with
  | nil =>
    intro x hx h
    obtain ⟨a, b, hab⟩ := h
    exact absurd hab.symm (by simp)
  | cons c v' ih =>
    intro x hx h
    rcases (seqIn_cons_iff _ c v').mp h with ⟨b, hb⟩ | hseq
    · simp only [List.cons_append, List.cons.injEq] at hb
      obtain ⟨rfl, hv'⟩ := hb
      simp only [List.cons_append, List.nil_append] at hv'
      obtain ⟨hnb, tnb, hsb⟩ : ∃ hnb tnb, splitOnNl b = hnb :: tnb := by
        cases hsp : splitOnNl b with
        | nil => exact absurd hsp (splitOnNl_ne_nil b)
        | cons q r => exact ⟨q, r, rfl⟩
      have hlines : splitOnNl v' = [] :: hnb :: tnb := by
        rw [hv', splitOnNl_cons_nl, hsb]
      rw [splitOnNl_cons_ne c v' [] (hnb :: tnb) hx hlines]
      exact ⟨[c], List.mem_cons_self _ _, rfl⟩
    · obtain ⟨l, hl, hlast⟩ := ih x hx hseq
      by_cases hc : c = '\n'
      · subst hc
        rw [splitOnNl_cons_nl]
        exact ⟨l, List.mem_cons_of_mem [] hl, hlast⟩
      · obtain ⟨hw, tw, hsw⟩ : ∃ hw tw, splitOnNl v' = hw :: tw := by
          cases hsp : splitOnNl v' with
          | nil => exact absurd hsp (splitOnNl_ne_nil v')
          | cons q r => exact ⟨q, r, rfl⟩
        rw [hsw] at hl
        rw [splitOnNl_cons_ne c v' hw tw hc hsw]
        rcases List.mem_cons.mp hl with rfl | hl'
        · have hne : l ≠ [] := by
            intro hnil
            rw [hnil] at hlast
            simp at hlast
          cases l with
          | nil => exact absurd rfl hne
          | cons l0 l' =>
            exact ⟨c :: l0 :: l', List.mem_cons_self _ _, by
              rw [List.getLast?_cons_cons]; exact hlast⟩
        · exact ⟨l, List.mem_cons_of_mem _ hl', hlast⟩

theorem getLast?_some_decomp (l : List Char) (c : Char) (h : l.getLast? = some c) :
    ∃ l0, l = l0 ++ [c] := by
  rcases List.eq_nil_or_concat l with rfl | ⟨L, b, hL⟩
  · simp at h
  · rw [List.concat_eq_append] at hL
    subst hL
    rw [List.getLast?_concat] at h
    exact ⟨L, by simp [Option.some_inj.mp h]⟩

/-- Lines of a string with right-trimmed line breaks and a non-whitespace
final character are all right-trimmed. -/
theorem lines_lastOk_of (v : List Char) (hp : noTrailPair v) (he : lastOk v) :
    ∀ l ∈ splitOnNl v, lastOk l := by
  intro l hl c hc
  obtain ⟨l0, rfl⟩ := getLast?_some_decomp l c hc
  have hcnl : c ≠ '\n' := by
    intro hcc
    exact nl_not_mem_lines v _ hl (hcc ▸ List.mem_append.mpr (Or.inr (by simp)))
  rcases line_boundary v.length v (le_refl _) _ hl with hseq | ⟨a, ha⟩
  · by_cases hw : wsB c
    · exfalso
      refine hp c hw hcnl (seqIn_of_seqIn ?_ hseq)
      exact ⟨l0, [], by simp⟩
    · simpa using hw
  · refine he c ?_
    rw [ha, ← List.append_assoc, List.getLast?_concat]

theorem noTrailPair_of_lines (v : List Char)
    (h : ∀ l ∈ splitOnNl v, lastOk l) : noTrailPair v := by
  intro x hw hne hseq
  obtain ⟨l, hl, hlast⟩ := trailing_pair_line v x hne hseq
  have hfalse := h l hl x hlast
  rw [hw] at hfalse
  simp at hfalse

/-! ### Space-run collapsing -/

theorem noTriple_tail (c : Char) (l : List Char) (h : noTriple (c :: l) = true) :
    noTriple l = true := by
  cases l with
  | nil => rfl
  | cons x rest =>
    cases rest with
    | nil => rfl
    | cons y rest' =>
      simp only [noTriple, Bool.and_eq_true] at h
      exact h.2

theorem noTriple_drop_left (a l : List Char) (h : noTriple (a ++ l) = true) :
    noTriple l = true := by
  induction a with
  | nil => exact h
  | cons c a' ih => exact ih (noTriple_tail c (a' ++ l) h)

theorem noTriple_not_seqIn (v : List Char) (h : noTriple v = true) :
    ¬ seqIn [' ', ' ', ' '] v := by
  induction v with
  | nil =>
    rintro ⟨a, b, hab⟩
    exact absurd hab.symm (by simp)
  | cons c v' ih =>
    intro hseq
    rcases (seqIn_cons_iff _ c v').mp hseq with ⟨b, hb⟩ | hseq'
    · simp only [List.cons_append, List.cons.injEq] at hb
      obtain ⟨rfl, hv'⟩ := hb
      rw [hv'] at h
      simp [noTriple] at h
    · exact ih (noTriple_tail c v' h) hseq'

theorem noTriple_of_not_seqIn (v : List Char) (h : ¬ seqIn [' ', ' ', ' '] v) :
    noTriple v = true := by
  induction v with
  | nil => rfl
  | cons c v' ih =>
    have hv' : noTriple v' = true := by
      refine ih (fun hc => h (seqIn_cons_of _ c v' hc))
    cases v' with
    | nil => rfl
    | cons x rest =>
      cases rest with
      | nil => rfl
      | cons y rest' =>
        simp only [noTriple, Bool.and_eq_true]
        refine ⟨?_, hv'⟩
        by_cases hsp : c = ' ' ∧ x = ' ' ∧ y = ' '
        · exfalso
          obtain ⟨rfl, rfl, rfl⟩ := hsp
          exact h ⟨[], rest', rfl⟩
        · have hsp' := hsp
          simp only [not_and] at hsp'
          simp only [Bool.not_eq_true', Bool.and_eq_false_iff, decide_eq_false_iff_not]
          tauto

theorem noTriple_of_seqIn (u v : List Char) (h : noTriple v = true)
    (hs : seqIn u v) : noTriple u = true :=
  noTriple_of_not_seqIn u (fun hc => noTriple_not_seqIn v h (seqIn_of_seqIn hc hs))

theorem noTriple_cons_of_ne (c : Char) (y : List Char) (hc : c ≠ ' ')
    (h : noTriple y = true) : noTriple (c :: y) = true := by
  cases y with
  | nil => rfl
  | cons x rest =>
    cases rest with
    | nil => rfl
    | cons z rest' =>
      simp only [noTriple, Bool.and_eq_true]
      exact ⟨by simp [hc], h⟩

theorem noTriple_sp_cons_of_ne (c : Char) (y : List Char) (hc : c ≠ ' ')
    (h : noTriple (c :: y) = true) : noTriple (' ' :: c :: y) = true := by
  cases y with
  | nil => rfl
  | cons x rest =>
    simp only [noTriple, Bool.and_eq_true]
    exact ⟨by simp [hc], h⟩

theorem noTriple_sp_sp_cons_of_ne (c : Char) (y : List Char) (hc : c ≠ ' ')
    (h : noTriple (c :: y) = true) : noTriple (' ' :: ' ' :: c :: y) = true := by
  simp only [noTriple, Bool.and_eq_true]
  exact ⟨by simp [hc], noTriple_sp_cons_of_ne c y hc h⟩

theorem noTriple_replicate_ge3 (n : Nat) (l : List Char) (h : 3 ≤ n) :
    noTriple (List.replicate n ' ' ++ l) = false := by
  obtain ⟨m, rfl⟩ : ∃ m, n = m + 3 := ⟨n - 3, by omega⟩
  simp [List.replicate_succ, noTriple]

theorem noTriple_c3go (l : List Char) : ∀ n, noTriple (c3go n l) = true := by
  induction l with
  | nil =>
    intro n
    by_cases h3 : 3 ≤ n
    · simp [c3go, h3]; rfl
    · interval_cases n <;> simp [c3go] <;> rfl
  | cons c rest ih =>
    intro n
    by_cases hc : c = ' '
    · subst hc
      simpa [c3go] using ih (n + 1)
    · have h0 := ih 0
      by_cases h3 : 3 ≤ n
      · simp only [c3go, if_neg hc, if_pos h3, List.singleton_append]
        exact noTriple_sp_cons_of_ne c _ hc (noTriple_cons_of_ne c _ hc h0)
      · have hn : n = 0 ∨ n = 1 ∨ n = 2 := by omega
        rcases hn with rfl | rfl | rfl
        · simpa [c3go, hc, h3] using noTriple_cons_of_ne c _ hc h0
        · simpa [c3go, hc, h3, List.replicate] using
            noTriple_sp_cons_of_ne c _ hc (noTriple_cons_of_ne c _ hc h0)
        · simpa [c3go, hc, h3, List.replicate] using
            noTriple_sp_sp_cons_of_ne c _ hc (noTriple_cons_of_ne c _ hc h0)

theorem c3go_eq_of_noTriple (l : List Char) :
    ∀ n, noTriple (List.replicate n ' ' ++ l) = true →
      c3go n l = List.replicate n ' ' ++ l := by
  induction l with
  | nil =>
    intro n h
    have h3 : ¬ 3 ≤ n := by
      intro h3
      rw [noTriple_replicate_ge3 n [] h3] at h
      exact absurd h (by simp)
    simp [c3go, h3]
  | cons c rest ih =>
    intro n h
    by_cases hc : c = ' '
    · subst hc
      have hrepl : List.replicate n ' ' ++ ' ' :: rest =
          List.replicate (n + 1) ' ' ++ rest := by
        rw [List.replicate_succ']
        simp
      rw [hrepl] at h
      simpa [c3go, hrepl] using ih (n + 1) h
    · have h3 : ¬ 3 ≤ n := by
        intro h3
        rw [noTriple_replicate_ge3 n (c :: rest) h3] at h
        exact absurd h (by simp)
      have hrest : noTriple rest = true :=
        noTriple_tail c rest (noTriple_drop_left (List.replicate n ' ') _ h)
      have hres := ih 0 (by simpa using hrest)
      simp only [c3go, if_neg hc, if_neg h3]
      rw [hres]
      simp

theorem noTriple_collapse3 (l : List Char) : noTriple (collapse3 l) = true :=
  noTriple_c3go l 0

theorem collapse3_eq_of_noTriple (l : List Char) (h : noTriple l = true) :
    collapse3 l = l := by
  have := c3go_eq_of_noTriple l 0 (by simpa using h)
  simpa [collapse3] using this

theorem mem_c3go (l : List Char) : ∀ n c, c ∈ c3go n l → c = ' ' ∨ c ∈ l := by
  induction l with
  | nil =>
    intro n c hc
    by_cases h3 : 3 ≤ n <;> simp [c3go, h3] at hc
    · exact Or.inl hc
    · exact Or.inl hc.2
  | cons a rest ih =>
    intro n c hc
    by_cases ha : a = ' '
    · subst ha
      simp only [c3go, if_pos rfl] at hc
      rcases ih (n + 1) c hc with h | h
      · exact Or.inl h
      · exact Or.inr (List.mem_cons_of_mem _ h)
    · simp only [c3go, if_neg ha] at hc
      rcases List.mem_append.mp hc with hblk | hrest
      · left
        by_cases h3 : 3 ≤ n <;> simp [h3] at hblk
        · exact hblk
        · exact hblk.2
      · rcases List.mem_cons.mp hrest with rfl | hr
        · exact Or.inr (List.mem_cons_self _ _)
        · rcases ih 0 c hr with h | h
          · exact Or.inl h
          · exact Or.inr (List.mem_cons_of_mem _ h)

/-! ### Replacement lemmas -/

theorem leads_subset (pat : List Char) : ∀ s, leads pat s = true → ∀ c ∈ pat, c ∈ s := by
  induction pat with
  | nil => intro s _ c hc; simp at hc
  | cons a as ih =>
    intro s h c hc
    cases s with
    | nil => simp [leads] at h
    | cons b bs =>
      simp only [leads, Bool.and_eq_true, decide_eq_true_eq] at h
      obtain ⟨rfl, h2⟩ := h
      rcases List.mem_cons.mp hc with rfl | hc'
      · exact List.mem_cons_self _ _
      · exact List.mem_cons_of_mem _ (ih bs h2 c hc')

theorem replaceAllAux_no_occ (pat rep : List Char) (ch : Char) (hch : ch ∈ pat) :
    ∀ fuel s, ch ∉ s → replaceAllAux pat rep fuel s = s := by
  intro fuel
  induction fuel with
  | zero => intro s _; cases s <;> rfl
  | succ n ih =>
    intro s hs
    cases s with
    | nil => rfl
    | cons c rest =>
      have hlead : ¬ leads pat (c :: rest) = true := by
        intro hl
        exact hs (leads_subset pat (c :: rest) hl ch hch)
      rw [replaceAllAux, if_neg hlead]
      have : ch ∉ rest := fun hm => hs (List.mem_cons_of_mem c hm)
      rw [ih rest this]

theorem replaceAll_no_occ (s pat rep : List Char) (h : ∃ ch ∈ pat, ch ∉ s) :
    replaceAll s pat rep = s := by
  obtain ⟨ch, hch, hns⟩ := h
  exact replaceAllAux_no_occ pat rep ch hch s.length s hns

theorem mem_replaceAllAux (pat rep : List Char) :
    ∀ fuel s c, c ∈ replaceAllAux pat rep fuel s → c ∈ rep ∨ c ∈ s := by
  intro fuel
  induction fuel with
  | zero =>
    intro s c hc
    cases s with
    | nil => simp [replaceAllAux] at hc
    | cons a rest => exact Or.inr hc
  | succ n ih =>
    intro s c hc
    cases s with
    | nil => simp [replaceAllAux] at hc
    | cons a rest =>
      rw [replaceAllAux] at hc
      split_ifs at hc with hl
      · rcases List.mem_append.mp hc with h | h
        · exact Or.inl h
        · rcases ih _ c h with h' | h'
          · exact Or.inl h'
          · exact Or.inr (List.drop_subset pat.length (a :: rest) h')
      · rcases List.mem_cons.mp hc with rfl | h
        · exact Or.inr (List.mem_cons_self _ _)
        · rcases ih rest c h with h' | h'
          · exact Or.inl h'
          · exact Or.inr (List.mem_cons_of_mem _ h')

theorem mem_replaceAll (s pat rep : List Char) (c : Char)
    (h : c ∈ replaceAll s pat rep) : c ∈ rep ∨ c ∈ s :=
  mem_replaceAllAux pat rep s.length s c h

theorem replace_single_elim (x d : Char) (hxd : x ≠ d) :
    ∀ fuel s, s.length ≤ fuel → x ∉ replaceAllAux [x] [d] fuel s := by
  intro fuel
  induction fuel with
  | zero =>
    intro s hs
    have : s = [] := List.length_eq_zero.mp (Nat.le_zero.mp hs)
    subst this
    simp [replaceAllAux]
  | succ n ih =>
    intro s hs
    cases s with
    | nil => simp [replaceAllAux]
    | cons c rest =>
      by_cases hcx : x = c
      · subst hcx
        have hl : leads [x] (x :: rest) = true := by simp [leads]
        rw [replaceAllAux, if_pos hl]
        intro hmem
        rcases List.mem_append.mp hmem with h | h
        · exact hxd (List.mem_singleton.mp h)
        · have hrest : rest.length ≤ n := by
            simp only [List.length_cons] at hs
            omega
          exact ih ((x :: rest).drop 1) (by simpa using hrest) h
      · have hl : ¬ leads [x] (c :: rest) = true := by
          simp only [leads, Bool.and_eq_true, decide_eq_true_eq]
          intro hcc
          exact hcx hcc.1
        rw [replaceAllAux, if_neg hl]
        intro hmem
        rcases List.mem_cons.mp hmem with heq | h
        · exact hcx heq
        · have hrest : rest.length ≤ n := by
            simp only [List.length_cons] at hs
            omega
          exact ih rest hrest h

theorem crFix_no_cr (s : List Char) : '\r' ∉ crFix s := by
  unfold crFix
  exact replace_single_elim '\r' '\n' (by decide) _ _ (le_refl _)

theorem crFix_noop (t : List Char) (h : '\r' ∉ t) : crFix t = t := by
  unfold crFix
  rw [replaceAll_no_occ t ['\r', '\n'] ['\n'] ⟨'\r', by simp, h⟩]
  rw [replaceAll_no_occ t ['\r'] ['\n'] ⟨'\r', by simp, h⟩]

/-! ### ASCII no-op lemmas -/

theorem nfkcChar_ascii (c : Char) (h : c.toNat < 128) : nfkcChar c = [c] := by
  unfold nfkcChar
  rw [if_neg, if_neg, if_neg]
  · intro hc
    rw [hc] at h
    exact absurd h (by decide)
  · intro hc
    rw [hc] at h
    exact absurd h (by decide)
  · intro hc
    rw [hc] at h
    exact absurd h (by decide)

theorem nfkc_ascii (s : List Char) (h : allAscii s) : nfkc s = s := by
  induction s with
  | nil => rfl
  | cons c rest ih =>
    have hc : c.toNat < 128 := h c (List.mem_cons_self _ _)
    have hrest : allAscii rest := fun x hx => h x (List.mem_cons_of_mem c hx)
    simp only [nfkc, List.map_cons, List.flatten_cons]
    rw [nfkcChar_ascii c hc]
    simpa [nfkc] using ih hrest

theorem tables_nonascii :
    ∀ pr ∈ mojibakeFixes ++ canonicalTable ++ stripCharsTable,
      ∃ ch ∈ pr.1, 128 ≤ ch.toNat := by decide

theorem applyTable_ascii_noop (tbl : List (List Char × List Char)) (s : List Char)
    (hs : allAscii s) (ht : ∀ pr ∈ tbl, ∃ ch ∈ pr.1, 128 ≤ ch.toNat) :
    applyTable tbl s = s := by
  induction tbl with
  | nil => rfl
  | cons pr tbl' ih =>
    obtain ⟨ch, hch, hge⟩ := ht pr (List.mem_cons_self _ _)
    have hnot : ch ∉ s := fun hm => by
      have := hs ch hm
      omega
    have hstep : replaceAll s pr.1 pr.2 = s :=
      replaceAll_no_occ s pr.1 pr.2 ⟨ch, hch, hnot⟩
    simp only [applyTable, List.foldl_cons, hstep]
    exact ih (fun q hq => ht q (List.mem_cons_of_mem pr hq))

theorem nbsp_noop (s : List Char) (hs : allAscii s) :
    replaceAll s [' '] [' '] = s := by
  refine replaceAll_no_occ s _ _ ⟨' ', by simp, fun hm => ?_⟩
  have := hs _ hm
  exact absurd this (by decide)

/-- Under an all-ASCII input, steps 1–5 of `normalize_text` are the identity
and only the newline fix and the line processing act. -/
theorem normalize_ascii_shape (s : List Char) (h : allAscii s) :
    normalize_text s =
      if s = [] then [] else stripCh (joinNl ((splitOnNl (crFix s)).map lineFix)) := by
  by_cases hs : s = []
  · simp [normalize_text, hs]
  · unfold normalize_text
    rw [if_neg hs, if_neg hs]
    have h1 : nfkc s = s := nfkc_ascii s h
    have h2 : applyTable mojibakeFixes s = s :=
      applyTable_ascii_noop _ s h (fun pr hpr =>
        tables_nonascii pr (by simp [hpr]))
    have h3 : applyTable canonicalTable s = s :=
      applyTable_ascii_noop _ s h (fun pr hpr =>
        tables_nonascii pr (by simp [hpr]))
    have h4 : replaceAll s [' '] [' '] = s := nbsp_noop s h
    have h5 : applyTable stripCharsTable s = s :=
      applyTable_ascii_noop _ s h (fun pr hpr =>
        tables_nonascii pr (by simp [hpr]))
    simp only [h1, h2, h3, h4, h5]

/-! ### Idempotence on ASCII input -/

theorem noTriple_lineFix (l : List Char) : noTriple (lineFix l) = true := by
  obtain ⟨b, hb⟩ := rstripCh_append (collapse3 l)
  exact noTriple_of_seqIn _ _ (noTriple_collapse3 l) ⟨[], b, by simpa using hb⟩

theorem lastOk_lineFix (l : List Char) : lastOk (lineFix l) := lastOk_rstripCh _

theorem nl_not_mem_lineFix (l : List Char) (h : '\n' ∉ l) : '\n' ∉ lineFix l := by
  intro hm
  have h1 : '\n' ∈ collapse3 l := mem_rstripCh _ _ hm
  rcases mem_c3go l 0 '\n' h1 with h2 | h2
  · exact absurd h2 (by decide)
  · exact h h2

theorem mem_lineFix (l : List Char) (c : Char) (h : c ∈ lineFix l) :
    c = ' ' ∨ c ∈ l :=
  mem_c3go l 0 c (mem_rstripCh _ _ h)

theorem mem_joinNl (ls : List (List Char)) (c : Char) (h : c ∈ joinNl ls) :
    c = '\n' ∨ ∃ l ∈ ls, c ∈ l := by
  induction ls with
  | nil => simp [joinNl] at h
  | cons x ls' ih =>
    cases ls' with
    | nil => exact Or.inr ⟨x, by simp, by simpa [joinNl] using h⟩
    | cons y ys =>
      rw [joinNl_cons_cons] at h
      rcases List.mem_append.mp h with h1 | h1
      · exact Or.inr ⟨x, List.mem_cons_self _ _, h1⟩
      · rcases List.mem_cons.mp h1 with rfl | h2
        · exact Or.inl rfl
        · rcases ih h2 with h3 | ⟨l, hl, hcl⟩
          · exact Or.inl h3
          · exact Or.inr ⟨l, List.mem_cons_of_mem _ hl, hcl⟩

theorem mem_crFix (s : List Char) (c : Char) (h : c ∈ crFix s) : c = '\n' ∨ c ∈ s := by
  unfold crFix at h
  rcases mem_replaceAll _ _ _ c h with h1 | h1
  · exact Or.inl (List.mem_singleton.mp h1)
  · rcases mem_replaceAll _ _ _ c h1 with h2 | h2
    · exact Or.inl (List.mem_singleton.mp h2)
    · exact Or.inr h2

theorem lineFix_eq_self (l : List Char) (h1 : noTriple l = true) (h2 : lastOk l) :
    lineFix l = l := by
  unfold lineFix
  rw [collapse3_eq_of_noTriple l h1]
  exact (rstripCh_eq_self_iff l).mpr h2

theorem map_lineFix_id (ls : List (List Char)) (h : ∀ l ∈ ls, lineFix l = l) :
    ls.map lineFix = ls := by
  induction ls with
  | nil => rfl
  | cons x ls' ih =>
    rw [List.map_cons, h x (List.mem_cons_self _ _),
      ih (fun l hl => h l (List.mem_cons_of_mem x hl))]

/-- A string whose lines are collapsed and right-trimmed, which is itself
trimmed, ASCII and free of carriage returns, is a fixed point of the
normalizer. -/
theorem normalize_fixed (t : List Char) (ha : allAscii t) (hr : '\r' ∉ t)
    (hl : ∀ l ∈ splitOnNl t, noTriple l = true ∧ lastOk l)
    (hstr : stripCh t = t) : normalize_text t = t := by
  by_cases ht : t = []
  · simp [normalize_text, ht]
  · rw [normalize_ascii_shape t ha, if_neg ht, crFix_noop t hr]
    rw [map_lineFix_id _ (fun l hlm => lineFix_eq_self l (hl l hlm).1 (hl l hlm).2)]
    rw [joinNl_splitOnNl, hstr]

theorem lines_noTriple_strip (w : List Char)
    (hw : ∀ l ∈ splitOnNl w, noTriple l = true) :
    ∀ l ∈ splitOnNl (stripCh w), noTriple l = true := by
  intro l hl
  have h1 : seqIn l (stripCh w) := seqIn_line _ _ hl
  have h2 : seqIn l w := seqIn_of_seqIn h1 (stripCh_seqIn w)
  have h3 : '\n' ∉ l := nl_not_mem_lines _ l hl
  obtain ⟨l', hl', hseq⟩ := seqIn_line_of_seqIn w l h3 h2
  exact noTriple_of_seqIn l l' (hw l' hl') hseq

theorem lines_lastOk_strip (w : List Char) (hw : ∀ l ∈ splitOnNl w, lastOk l) :
    ∀ l ∈ splitOnNl (stripCh w), lastOk l := by
  have hp : noTrailPair w := noTrailPair_of_lines w hw
  have hps : noTrailPair (stripCh w) := by
    intro x hx hne hs
    exact hp x hx hne (seqIn_of_seqIn hs (stripCh_seqIn w))
  exact lines_lastOk_of _ hps (lastOk_stripCh w)

/-- C5 (amended): the normalizer is idempotent on ASCII strings — the general
claim fails (see the counterexample) because the mojibake table can emit
characters such as `…` and `™` whose NFKC image differs, but on ASCII input
the replacement passes are inert and the line processing is a projection. -/
theorem normalize_idempotent_ascii (s : List Char) (h : allAscii s) :
    normalize_text (normalize_text s) = normalize_text s := by
  by_cases hs : s = []
  · subst hs
    simp [normalize_text]
  · have hshape : normalize_text s =
        stripCh (joinNl ((splitOnNl (crFix s)).map lineFix)) := by
      rw [normalize_ascii_shape s h, if_neg hs]
    set ls := (splitOnNl (crFix s)).map lineFix with hls
    have hnlfree : ∀ l ∈ ls, '\n' ∉ l := by
      rw [hls]
      intro l hlm
      obtain ⟨x, hx, rfl⟩ := List.mem_map.mp hlm
      exact nl_not_mem_lineFix x (nl_not_mem_lines _ x hx)
    have hlsne : ls ≠ [] := by
      rw [hls]
      intro hmap
      exact splitOnNl_ne_nil (crFix s) (List.map_eq_nil_iff.mp hmap)
    have hwlines : splitOnNl (joinNl ls) = ls := splitOnNl_joinNl ls hlsne hnlfree
    have hwprops : ∀ l ∈ splitOnNl (joinNl ls), noTriple l = true ∧ lastOk l := by
      rw [hwlines, hls]
      intro l hlm
      obtain ⟨x, hx, rfl⟩ := List.mem_map.mp hlm
      exact ⟨noTriple_lineFix x, lastOk_lineFix x⟩
    have ht1 : ∀ l ∈ splitOnNl (stripCh (joinNl ls)), noTriple l = true :=
      lines_noTriple_strip _ (fun l hlm => (hwprops l hlm).1)
    have ht2 : ∀ l ∈ splitOnNl (stripCh (joinNl ls)), lastOk l :=
      lines_lastOk_strip _ (fun l hlm => (hwprops l hlm).2)
    have hascii : allAscii (stripCh (joinNl ls)) := by
      intro c hc
      have h1 : c ∈ joinNl ls := mem_stripCh _ c hc
      rcases mem_joinNl ls c h1 with rfl | ⟨l, hlm, hcl⟩
      · decide
      · rw [hls] at hlm
        obtain ⟨x, hx, rfl⟩ := List.mem_map.mp hlm
        rcases mem_lineFix x c hcl with rfl | h3
        · decide
        · rcases mem_crFix s c (mem_of_mem_line _ x hx h3) with rfl | h4
          · decide
          · exact h c h4
    have hcr : '\r' ∉ stripCh (joinNl ls) := by
      intro hc
      have h1 : '\r' ∈ joinNl ls := mem_stripCh _ _ hc
      rcases mem_joinNl ls '\r' h1 with h2 | ⟨l, hlm, hcl⟩
      · exact absurd h2 (by decide)
      · rw [hls] at hlm
        obtain ⟨x, hx, rfl⟩ := List.mem_map.mp hlm
        rcases mem_lineFix x '\r' hcl with h3 | h3
        · exact absurd h3 (by decide)
        · exact crFix_no_cr s (mem_of_mem_line _ x hx h3)
    rw [hshape]
    exact normalize_fixed (stripCh (joinNl ls)) hascii hcr
      (fun l hlm => ⟨ht1 l hlm, ht2 l hlm⟩) (stripCh_idem (joinNl ls))

/-- C5 witness: the amended idempotence applied to a concrete ASCII string
with runs of spaces, a Windows newline and trailing whitespace. -/
theorem normalize_idempotent_ascii_witness :
    allAscii ("  a    b\r\n\tc  ".toList) ∧
      normalize_text (normalize_text ("  a    b\r\n\tc  ".toList)) =
        normalize_text ("  a    b\r\n\tc  ".toList) :=
  ⟨by unfold allAscii; decide, normalize_idempotent_ascii _ (by unfold allAscii; decide)⟩

end App
